import Mathlib

/-!
Verification development for the heroku-applink-vscode extension.

The development shallowly embeds the extension's pure text-processing logic:

* the list-response parsers of the Explorer view (`parseTableOutput`,
  `parseFallbackRows`, the HTTP-debug JSON collector, and their sequencing in
  `AppLinkExplorer.getChildren`),
* the per-command schema layer of `extension.ts` (`COMMAND_SCHEMAS`,
  `parseHelpForFlags`, `inferSchemaFromHelp`, `getSchemaForCommand`), and
* the argument-vector assembly of `runHerokuCommand`.

JavaScript strings are modelled as `List Char` (with `String` wrappers at the
public boundary); JavaScript objects `Record<string, string>` are modelled as
association lists with JS-object insertion semantics (`recInsert`).  External
processes (`child_process.exec`) are modelled as an oracle
`String → Option String` (`none` = spawn failure / rejected promise), and each
modelled operation additionally returns the list of command lines it spawned.
The built-in `JSON.parse`-based list strategies are modelled as oracle
parameters (they are host built-ins, not repository code); every theorem that
touches them quantifies over the oracle.  Regular-expression tests are
translated position-by-position with JavaScript `\s`, `\b` and `\w`
semantics (ASCII case mapping).
-/

set_option maxRecDepth 16384

/-- JavaScript `\s` (and `String.prototype.trim`) white-space class, by code
point. -/
def isJsWs (c : Char) : Bool :=
  c.toNat == 32 || c.toNat == 9 || c.toNat == 10 || c.toNat == 13 ||
  c.toNat == 11 || c.toNat == 12 ||
  c.toNat == 0xa0 || c.toNat == 0x1680 ||
  (0x2000 ≤ c.toNat && c.toNat ≤ 0x200a) ||
  c.toNat == 0x2028 || c.toNat == 0x2029 || c.toNat == 0x202f ||
  c.toNat == 0x205f || c.toNat == 0x3000 || c.toNat == 0xfeff

/-- JavaScript `\w` word characters (ASCII letters, digits, underscore). -/
def isWordChar (c : Char) : Bool :=
  (97 ≤ c.toNat && c.toNat ≤ 122) || (65 ≤ c.toNat && c.toNat ≤ 90) ||
  (48 ≤ c.toNat && c.toNat ≤ 57) || c.toNat == 95

/-- ASCII lower-casing of one character (JS `toLowerCase` on ASCII data). -/
def lowCh (c : Char) : Char :=
  if 65 ≤ c.toNat && c.toNat ≤ 90 then Char.ofNat (c.toNat + 32) else c

/-- ASCII lower-casing of a character list. -/
def lowerCL (s : List Char) : List Char := s.map lowCh

/-- JS `String.prototype.trim` on a character list. -/
def trimCL (s : List Char) : List Char :=
  ((s.dropWhile isJsWs).reverse.dropWhile isJsWs).reverse

/-- Drop trailing white space only (JS `trimEnd`). -/
def trimEndCL (s : List Char) : List Char :=
  (s.reverse.dropWhile isJsWs).reverse

/-- Replace every maximal run of characters satisfying `p` by the single
character `rep` (JS `replace(/p+/g, rep)`, assuming `p rep = true`). -/
def collapseRuns (p : Char → Bool) (rep : Char) (s : List Char) : List Char :=
  s.foldr
    (fun c acc =>
      if p c then
        match acc with
        | a :: _ => if a = rep then acc else rep :: acc
        | [] => rep :: acc
      else c :: acc)
    []

/-- JS `replace(/\s+/g, ' ')`. -/
def collapseWs (s : List Char) : List Char := collapseRuns isJsWs ' ' s

/-- One step of the white-space tokenizer: state is (tokens to the right,
pending token). -/
def wsTokensStep (c : Char) (st : List (List Char) × List Char) :
    List (List Char) × List Char :=
  if isJsWs c then (if st.2 = [] then st.1 else st.2 :: st.1, [])
  else (st.1, c :: st.2)

/-- Maximal runs of non-white-space characters, in order (used to speak about
the tokens of an assembled command line). -/
def wsTokens (s : List Char) : List (List Char) :=
  let st := s.foldr wsTokensStep ([], [])
  if st.2 = [] then st.1 else st.2 :: st.1

/-- Split on one separator character, keeping empty pieces (JS `split("\n")`). -/
def splitChar (sep : Char) (s : List Char) : List (List Char) :=
  s.foldr
    (fun c (acc : List (List Char)) =>
      if c = sep then [] :: acc
      else
        match acc with
        | first :: rest => (c :: first) :: rest
        | [] => [[c]])
    [[]]

/-- Drop one trailing `'\r'` (the optional part of the `/\r?\n/` separator). -/
def stripTrailCR (l : List Char) : List Char :=
  if l.getLast? = some '\r' then l.dropLast else l

/-- Split on `/\r?\n/` (JS `text.split(/\r?\n/)`): split on `'\n'` and strip
one `'\r'` from the end of every piece that was followed by a `'\n'`. -/
def splitLinesJs (s : List Char) : List (List Char) :=
  let ps := splitChar '\n' s
  ps.dropLast.map stripTrailCR ++ ps.drop (ps.length - 1)

/-- One step of the run-splitting machine behind JS `split(/\s{2,}/)` and
`split(/\s{2,}|\t+/)`: state is (finished fields reversed, current field
reversed, pending white-space run reversed); `isSep` decides whether a
finished run separates fields. -/
def splitRunsStep (isSep : List Char → Bool) (st : List (List Char) × List Char × List Char)
    (c : Char) : List (List Char) × List Char × List Char :=
  if isJsWs c then (st.1, st.2.1, c :: st.2.2)
  else if isSep st.2.2 then (st.2.1.reverse :: st.1, [c], [])
  else (st.1, c :: (st.2.2 ++ st.2.1), [])

/-- Split a line into fields at every maximal white-space run satisfying
`isSep`, keeping empty fields exactly as JS `String.prototype.split` does. -/
def splitOnRuns (isSep : List Char → Bool) (s : List Char) : List (List Char) :=
  let st := s.foldl (splitRunsStep isSep) ([], [], [])
  (if isSep st.2.2 then [] :: st.2.1.reverse :: st.1
   else ((st.2.2 ++ st.2.1).reverse) :: st.1).reverse

/-- JS `split(/\s{2,}/)`: a separator is a white-space run of length ≥ 2. -/
def splitCols (l : List Char) : List (List Char) :=
  splitOnRuns (fun p => decide (2 ≤ p.length)) l

/-- JS `split(/\s{2,}|\t+/)`: a separator is a white-space run of length ≥ 2
or a lone tab. -/
def splitFB (l : List Char) : List (List Char) :=
  splitOnRuns (fun p => decide (2 ≤ p.length) || p == ['\t']) l

/-- CSI body characters of the stripped ANSI escapes (`[0-9;]`). -/
def isCsiBody (c : Char) : Bool := ('0' ≤ c && c ≤ '9') || c == ';'

/-- One step of the ANSI-escape stripper (JS `replace(/\u001b\[[0-9;]*m/g, '')`):
state is (emitted output reversed, pending partial-match characters in order). -/
def stripAnsiStep (st : List Char × List Char) (c : Char) : List Char × List Char :=
  match st.2 with
  | [] => if c = '\x1b' then (st.1, [c]) else (c :: st.1, [])
  | ['\x1b'] =>
    if c = '[' then (st.1, ['\x1b', '['])
    else if c = '\x1b' then ('\x1b' :: st.1, ['\x1b'])
    else (c :: '\x1b' :: st.1, [])
  | pend =>
    if c = 'm' then (st.1, [])
    else if isCsiBody c then (st.1, pend ++ [c])
    else if c = '\x1b' then (pend.reverse ++ st.1, ['\x1b'])
    else (c :: (pend.reverse ++ st.1), [])

/-- Remove every ANSI colour escape, as `parseTableOutput` does first. -/
def stripAnsi (s : List Char) : List Char :=
  let st := s.foldl stripAnsiStep ([], [])
  (st.2.reverse ++ st.1).reverse

/-- A parsed list row: the JS `Record<string, string>` objects of the
explorer, as an association list in key-insertion order. -/
abbrev RecordS := List (String × String)

/-- JS object write `r[k] = v`: overwrite in place when the key exists,
append otherwise. -/
def recInsert (r : RecordS) (k v : String) : RecordS :=
  if r.any (fun p => p.1 == k) then r.map (fun p => if p.1 == k then (k, v) else p)
  else r ++ [(k, v)]

/-- JS object read `r[k]`. -/
def lookupRec (r : RecordS) (k : String) : Option String :=
  (r.find? (fun p => p.1 == k)).map (fun p => p.2)

/-- The header normalizer of `parseTableOutput`:
`s.trim().toLowerCase().replace(/[^a-z0-9]+/g, ' ').replace(/\s+/g, ' ').trim()`. -/
def normalizeHeader (s : List Char) : List Char :=
  trimCL (collapseWs
    (collapseRuns (fun c => !(('a' ≤ c && c ≤ 'z') || ('0' ≤ c && c ≤ '9'))) ' '
      (lowerCL (trimCL s))))

/-- The divider test `/^[-\s]+$/` used while looking for the header line. -/
def isTableDividerNext (l : List Char) : Bool :=
  !l.isEmpty && l.all (fun c => c == '-' || isJsWs c)

/-- Header-candidate test of `parseTableOutput`: at least two columns and
either a divider on the next line or a letter in every column. -/
def isHeaderCandidate (lines : List (List Char)) (i : Nat) : Bool :=
  let cols := splitCols (lines.getD i [])
  decide (2 ≤ cols.length) &&
    (isTableDividerNext (lines.getD (i + 1) []) ||
     cols.all (fun c => c.any (fun ch => ('a' ≤ ch && ch ≤ 'z') || ('A' ≤ ch && ch ≤ 'Z'))))

/-- The divider test `/^[\-\s─]+$/` used to skip the line after the header. -/
def isSkipDivider (l : List Char) : Bool :=
  !l.isEmpty && l.all (fun c => c == '-' || c == '─' || isJsWs c)

/-- Zip the normalized header names against a row's trimmed fields,
writing each pair into a fresh record (`for j < min(...)` of the source). -/
def rowFromParts (headerParts : List String) (parts : List String) : RecordS :=
  (headerParts.zip parts).foldl (fun r kv => recInsert r kv.1 kv.2) []

/-- The column-table parser `parseTableOutput` of `explorer.ts` (lines 6–52). -/
def parseTableOutput (text : String) : List RecordS :=
  let rawLines := (splitLinesJs text.data).map (fun l => trimEndCL (stripAnsi l))
  let lines := rawLines.filter (fun l => !(trimCL l).isEmpty)
  if lines.length < 2 then []
  else
    match (List.range (min lines.length 20)).find? (isHeaderCandidate lines) with
    | none => []
    | some hIdx =>
      let headerParts := (splitCols (lines.getD hIdx [])).map
        (fun h => String.mk (normalizeHeader h))
      let start := if isSkipDivider (lines.getD (hIdx + 1) []) then hIdx + 2 else hIdx + 1
      (lines.drop start).filterMap (fun l =>
        let parts := (splitCols l).map (fun p => String.mk (trimCL p))
        if parts.length < 1 then none else some (rowFromParts headerParts parts))

/-- The divider test `/^[\-\=─]+$/` of `parseFallbackRows`. -/
def isFallbackDivider (l : List Char) : Bool :=
  !l.isEmpty && l.all (fun c => c == '-' || c == '=' || c == '─')

/-- The header test `/^id\b/i` of `parseFallbackRows`: the line starts with
`id` (any case) at a word boundary. -/
def isIdHeaderLine (l : List Char) : Bool :=
  match l with
  | c1 :: c2 :: rest =>
    lowCh c1 == 'i' && lowCh c2 == 'd' &&
      (match rest with
       | [] => true
       | c3 :: _ => !isWordChar c3)
  | _ => false

/-- `line.split(/\s{2,}|\t+/).filter(Boolean)` of `parseFallbackRows`. -/
def fallbackTokens (l : List Char) : List String :=
  ((splitFB l).filter (fun p => !p.isEmpty)).map String.mk

/-- One line of `parseFallbackRows`: skip dividers and `id…` headers, else
synthesize `id` / `name` / `app` keys from the first three fields. -/
def fallbackRow (l : List Char) : Option RecordS :=
  if isFallbackDivider l || isIdHeaderLine l then none
  else
    match fallbackTokens l with
    | [] => none
    | t0 :: rest =>
      let r1 := recInsert [] "id" t0
      let r2 := match rest with | t1 :: _ => recInsert r1 "name" t1 | [] => r1
      let r3 := match rest with | _ :: t2 :: _ => recInsert r2 "app" t2 | _ => r2
      some r3

/-- The trimmed, non-blank lines `parseFallbackRows` iterates over. -/
def prepFallbackLines (text : String) : List (List Char) :=
  ((splitLinesJs text.data).map trimCL).filter (fun l => !l.isEmpty)

/-- The fallback whitespace parser `parseFallbackRows` of `explorer.ts`
(lines 54–69). -/
def parseFallbackRows (text : String) : List RecordS :=
  (prepFallbackLines text).filterMap fallbackRow

/-- The line test `/^\s*http \[$/` locating the opening of the embedded
HTTP-debug JSON array. -/
def isHttpArrayStart (l : List Char) : Bool :=
  l.dropWhile isJsWs == "http [".data

/-- The capture of `/^\s*http\s+(.*)$/` on one line, when the line matches. -/
def httpLineContent (l : List Char) : Option (List Char) :=
  let r := l.dropWhile isJsWs
  if r.take 4 == "http".data then
    match r.drop 4 with
    | c :: rest => if isJsWs c then some (rest.dropWhile isJsWs) else none
    | [] => none
  else none

/-- Collect the debug-prefixed line remainders up to (and including) the
closing `]`, skipping non-matching lines, as `extractHttpDebugJsonArray` does. -/
def collectHttpDebugLines : List (List Char) → List (List Char)
  | [] => []
  | l :: rest =>
    match httpLineContent l with
    | none => collectHttpDebugLines rest
    | some content =>
      if trimCL content == "]".data then ["]".data]
      else content :: collectHttpDebugLines rest

/-- The line-scanning half of `extractHttpDebugJsonArray` (`explorer.ts`
lines 72–97): the joined text handed to `JSON.parse`, or `none` when no
`http [` opener exists. -/
def extractHttpDebugJsonText (stdout : String) : Option String :=
  let lines := splitLinesJs stdout.data
  match (List.range lines.length).reverse.find? (fun i => isHttpArrayStart (lines.getD i [])) with
  | none => none
  | some start =>
    some (String.intercalate "\n" ((collectHttpDebugLines (lines.drop start)).map String.mk))

/-- The list-response parsing sequence of `AppLinkExplorer.getChildren`
(`explorer.ts` lines 159–221): column-table parse, then fallback whitespace
parse, then direct JSON-array parse, then embedded debug-JSON parse, stopping
at the first non-empty result.  `jmap` and `dmap` are oracles for the two
`JSON.parse`-based record mappings (host built-ins, not repository code):
`jmap` receives the trimmed stdout, `dmap` the collected debug JSON text;
`none` models a thrown parse error or a non-array result. -/
def parseListResponse (jmap dmap : String → Option (List RecordS)) (stdout : String) :
    List RecordS :=
  let items1 := parseTableOutput stdout
  if !items1.isEmpty then items1
  else
    let items2 := parseFallbackRows stdout
    if !items2.isEmpty then items2
    else
      let t := String.mk (trimCL stdout.data)
      let items3 := if t.data.head? = some '[' then (jmap t).getD [] else []
      if !items3.isEmpty then items3
      else
        match extractHttpDebugJsonText stdout with
        | some jt => (dmap jt).getD []
        | none => []

/-- Claim C1 (code bug shown on the code as written): for the input `"[]"`
the list-response parser does NOT return an empty sequence — the fallback
whitespace parser runs before the direct JSON-array strategy and turns the
literal `[]` line into the single record `{id: "[]"}`, whatever the JSON
oracles would say.  The JSON branch the source comments reserve for a CLI
that "may print []" is unreachable for this input. -/
theorem parseListResponse_on_empty_json_array
    (jmap dmap : String → Option (List RecordS)) :
    parseListResponse jmap dmap "[]" = [[("id", "[]")]] := rfl

/-- Claim C2 (code bug shown on the code as written): the single-line JSON
text is swallowed whole by the fallback whitespace parser (it contains no
white space, so it is one "row" whose first token is the entire text), and
the JSON mapping that would produce `id = "x1"`, `status = "ok"`,
`connection name = "c1"` is never reached. -/
theorem parseListResponse_on_single_line_json
    (jmap dmap : String → Option (List RecordS)) :
    parseListResponse jmap dmap
      "[\x7b\"id\":\"x1\",\"status\":\"ok\",\"org\":\x7b\"connection_name\":\"c1\"\x7d\x7d]" =
      [[("id", "[\x7b\"id\":\"x1\",\"status\":\"ok\",\"org\":\x7b\"connection_name\":\"c1\"\x7d\x7d]")]] := rfl

/-- Claim C3 (code bug shown on the code as written): on
`"ID NAME\n--- ----\n1  foo\n2  bar"` the parser yields THREE records, not
two: the single-space header defeats the column-table parser (its separator
is a run of ≥ 2 spaces), and in the fallback parser the divider regex
`/^[\-\=─]+$/` has no space in its class, so `--- ----` passes as a data row
`{id: "--- ----"}` ahead of the two expected rows. -/
theorem parseListResponse_on_single_space_table
    (jmap dmap : String → Option (List RecordS)) :
    parseListResponse jmap dmap "ID NAME\n--- ----\n1  foo\n2  bar" =
      [[("id", "--- ----")], [("id", "1"), ("name", "foo")], [("id", "2"), ("name", "bar")]] := rfl

/-- The optional-flag block of a `CommandSchema` (`extension.ts` lines 32–37).
`none` models a key that is absent or explicitly `undefined`. -/
structure SupportedFlags where
  addon : Option Bool := none
  connection : Option Bool := none
  authorization : Option Bool := none
  authorizationName : Option Bool := none
deriving DecidableEq

/-- One declared positional argument (`extension.ts` lines 38–42). -/
structure PositionalArg where
  name : String
  required : Option Bool := none
  prompt : Option String := none
deriving DecidableEq

/-- The per-command schema type (`extension.ts` lines 29–44). -/
structure CommandSchema where
  requiresApp : Option Bool := none
  supportsJson : Option Bool := none
  supportedFlags : Option SupportedFlags := none
  positional : Option (List PositionalArg) := none
deriving DecidableEq

/-- The static table `COMMAND_SCHEMAS` (`extension.ts` lines 46–66). -/
def commandSchemas : List (String × CommandSchema) := [
  ("applink:connections", { supportsJson := some true }),
  ("applink:connections:info", { supportsJson := some true, positional := some [{ name := "idOrName", required := some true, prompt := some "Enter a connection ID or name" }] }),
  ("applink:authorizations", { supportsJson := some true }),
  ("applink:authorizations:info", { supportsJson := some true, positional := some [{ name := "idOrName", required := some true, prompt := some "Enter an authorization ID or name" }] }),
  ("salesforce:disconnect", {}),
  ("salesforce:publications", { supportsJson := some true }),
  ("salesforce:publish", { requiresApp := some true }),
  ("salesforce:authorizations:add", {}),
  ("salesforce:authorizations:remove", {}),
  ("salesforce:connect", {}),
  ("salesforce:connect:jwt", {}),
  ("datacloud:connect", { supportedFlags := some { addon := some true, authorization := some true } }),
  ("datacloud:disconnect", { supportedFlags := some { addon := some true, authorization := some true } }),
  ("datacloud:authorizations:add", { supportedFlags := some { authorization := some true } }),
  ("datacloud:authorizations:remove", { supportedFlags := some { authorization := some true } }),
  ("datacloud:data-action-target:create", { requiresApp := some true, supportedFlags := some { connection := some true } }),
  ("datacloud:deploy", { requiresApp := some true, supportedFlags := some { addon := some true, authorizationName := some true, authorization := some false } })]

/-- Word-ness of an optional character; string ends count as non-word for
JS `\b`. -/
def isWordO : Option Char → Bool
  | some c => isWordChar c
  | none => false

/-- Literal prefix test on character lists. -/
def isPrefB : List Char → List Char → Bool
  | [], _ => true
  | _ :: _, [] => false
  | a :: as, b :: bs => a == b && isPrefB as bs

/-- Does `p` hold at some suffix position of the list (a regex `test` scanning
every start position, the end position included)? -/
def anyPosition (p : List Char → Bool) : List Char → Bool
  | [] => p []
  | c :: rest => p (c :: rest) || anyPosition p rest

/-- Plain substring test (`String.prototype.includes`, regex without `\b`). -/
def isSubB (pat : List Char) (s : List Char) : Bool :=
  anyPosition (isPrefB pat) s

/-- The word-boundary-delimited literal match at one position: boundary
before (against the previous character), the literal itself, boundary after. -/
def testWBHere (pat : List Char) (firstW lastW : Bool) (patLen : Nat)
    (prev : Option Char) (s : List Char) : Bool :=
  (isWordO prev != firstW) && isPrefB pat s &&
    (isWordO ((s.drop patLen).head?) != lastW)

/-- JS `\b pat \b` regex test scanning every position, carrying the previous
character for the left word boundary. -/
def testWBAux (pat : List Char) (firstW lastW : Bool) (patLen : Nat) :
    Option Char → List Char → Bool
  | prev, [] => testWBHere pat firstW lastW patLen prev []
  | prev, c :: rest =>
    testWBHere pat firstW lastW patLen prev (c :: rest) ||
      testWBAux pat firstW lastW patLen (some c) rest

/-- JS `/\bpat\b/.test(s)` for a literal pattern `pat`. -/
def testWB (pat : String) (s : List Char) : Bool :=
  testWBAux pat.data (isWordO pat.data.head?) (isWordO pat.data.getLast?)
    pat.data.length none s

/-- One position of `-a,?\s*--app\b` (case-sensitive). -/
def dashAAppHere (s : List Char) : Bool :=
  match s with
  | '-' :: 'a' :: r =>
    let r1 := match r with | ',' :: rr => rr | _ => r
    let r2 := r1.dropWhile isJsWs
    isPrefB "--app".data r2 && !(isWordO ((r2.drop 5).head?))
  | _ => false

/-- The `\brequired\b` match at one position, given the previous character. -/
def requiredHereTest (prev : Char) (s : List Char) : Bool :=
  !isWordChar prev && isPrefB "required".data s && !(isWordO ((s.drop 8).head?))

/-- Scan a line (stopping at `'\n'`) for `\brequired\b`, carrying the
previous character for the left boundary (`[^\n]*\brequired\b`). -/
def requiredAfterHere : Char → List Char → Bool
  | prev, [] => requiredHereTest prev []
  | prev, c :: rest =>
    requiredHereTest prev (c :: rest) || (c != '\n' && requiredAfterHere c rest)

/-- One position of `-a,?\s*--app[^\n]*\brequired\b` (case-insensitive) (on lowered text). -/
def appRequiredHere (s : List Char) : Bool :=
  match s with
  | '-' :: 'a' :: r =>
    let r1 := match r with | ',' :: rr => rr | _ => r
    let r2 := r1.dropWhile isJsWs
    if isPrefB "--app".data r2 then requiredAfterHere 'p' (r2.drop 5) else false
  | _ => false

/-- The `required`-annotation half of the `requiresApp` heuristic. -/
def testAppRequired (sLow : List Char) : Bool := anyPosition appRequiredHere sLow

/-- The `\s(-a|--app)\b` match at one position (on lowered text). -/
def usageWsHere (s : List Char) : Bool :=
  match s with
  | c :: r =>
    isJsWs c &&
      ((isPrefB "-a".data r && !(isWordO ((r.drop 2).head?))) ||
       (isPrefB "--app".data r && !(isWordO ((r.drop 5).head?))))
  | [] => false

/-- Scan a line (stopping at `'\n'`) for `\s(-a|--app)\b` (on lowered text). -/
def usageFlagScan : List Char → Bool
  | [] => usageWsHere []
  | c :: rest => usageWsHere (c :: rest) || (c != '\n' && usageFlagScan rest)

/-- One position of `/usage:[^\n]*\s(-a|--app)\b/i` (on lowered text). -/
def usageAppHere (s : List Char) : Bool :=
  isPrefB "usage:".data s && usageFlagScan (s.drop 6)

/-- The usage-line half of the `requiresApp` heuristic. -/
def testUsageApp (sLow : List Char) : Bool := anyPosition usageAppHere sLow

/-- JS `b || undefined`. -/
def boolOrUndef (b : Bool) : Option Bool := if b then some true else none

/-- The help-text flag sniffing `parseHelpForFlags` (`extension.ts`
lines 77–98), with JS `\b` semantics preserved (note that `\b` before `--`
requires a word character right before the dashes). -/
def parseHelpForFlags (help : String) : CommandSchema :=
  let s := help.data
  let sLow := lowerCL s
  let supportsJson := testWB "--json" s
  let supportsAddon := testWB "--add-on" s || testWB "--addon" s
  let supportsConnection := testWB "--connection" s
  let supportsAuthorization := testWB "--authorization" s
  let supportsAuthorizationName :=
    testWB "--authorization-name" s || isSubB "authorization-name".data sLow
  let supportsAppFlag := anyPosition dashAAppHere s || testWB "--app" s
  let requiresApp := supportsAppFlag && (testAppRequired sLow || testUsageApp sLow)
  { requiresApp := boolOrUndef requiresApp,
    supportsJson := boolOrUndef supportsJson,
    supportedFlags := some {
      addon := boolOrUndef supportsAddon,
      connection := boolOrUndef supportsConnection,
      authorization := boolOrUndef supportsAuthorization,
      authorizationName := boolOrUndef supportsAuthorizationName },
    positional := none }

/-- The schema cache (`inferredSchemaCache`) and the static table share this
association-list representation of a JS `Map` / plain object. -/
abbrev SchemaCache := List (String × CommandSchema)

/-- `Map.get` / object index. -/
def lookupCache (cache : SchemaCache) (k : String) : Option CommandSchema :=
  (cache.find? (fun p => p.1 == k)).map (fun p => p.2)

/-- `Map.set`: overwrite in place, append when absent. -/
def cacheSet (cache : SchemaCache) (k : String) (v : CommandSchema) : SchemaCache :=
  if cache.any (fun p => p.1 == k) then
    cache.map (fun p => if p.1 == k then (k, v) else p)
  else cache ++ [(k, v)]

/-- Result of one schema operation: the value, the cache afterwards, and the
command lines handed to `exec` along the way. -/
structure SchemaLookup where
  schema : Option CommandSchema
  cache : SchemaCache
  spawned : List String
deriving DecidableEq

/-- The command line of the help probe (`heroku ${cliCommand} --help`). -/
def probeCmd (cliCommand : String) : String := "heroku " ++ cliCommand ++ " --help"

/-- The schema object `inferSchemaFromHelp` builds from a successful probe
(lines 106–111: the three sniffed fields, no positionals). -/
def schemaFromHelp (stdout : String) : CommandSchema :=
  let ph := parseHelpForFlags stdout
  { requiresApp := ph.requiresApp, supportsJson := ph.supportsJson,
    supportedFlags := ph.supportedFlags }

/-- `inferSchemaFromHelp` (`extension.ts` lines 100–117) with the module-level
cache passed explicitly; `exe` is the `execPromise` oracle (`none` = the
promise rejected, the `catch` path).  A failed probe caches nothing. -/
def inferSchemaFromHelp (exe : String → Option String) (cache : SchemaCache)
    (cliCommand : String) : SchemaLookup :=
  match lookupCache cache cliCommand with
  | some s => ⟨some s, cache, []⟩
  | none =>
    match exe (probeCmd cliCommand) with
    | none => ⟨none, cache, [probeCmd cliCommand]⟩
    | some stdout =>
      let schema := schemaFromHelp stdout
      ⟨some schema, cacheSet cache cliCommand schema, [probeCmd cliCommand]⟩

/-- JS `{ ...inferredFlags, ...baseFlags }`: keys present in the static entry
win field by field; a spread of `undefined` contributes nothing. -/
def spreadFlags (inf base : Option SupportedFlags) : SupportedFlags :=
  let i := inf.getD {}
  match base with
  | none => i
  | some b =>
    { addon := if b.addon.isSome then b.addon else i.addon,
      connection := if b.connection.isSome then b.connection else i.connection,
      authorization := if b.authorization.isSome then b.authorization else i.authorization,
      authorizationName := if b.authorizationName.isSome then b.authorizationName else i.authorizationName }

/-- Result of `getSchemaForCommand`: the schema used by the runner, the cache
afterwards, and the spawned command lines. -/
structure SchemaResult where
  schema : CommandSchema
  cache : SchemaCache
  spawned : List String
deriving DecidableEq

/-- The merged schema of `getSchemaForCommand` lines 129–134: static fields
win over inferred ones (`base.x !== undefined ? base.x : inferred.x`), the
flag blocks are spread together, the positionals come from the static entry. -/
def mergeInferred (base inf : CommandSchema) : CommandSchema :=
  { requiresApp := if base.requiresApp.isSome then base.requiresApp else inf.requiresApp,
    supportsJson := if base.supportsJson.isSome then base.supportsJson else inf.supportsJson,
    supportedFlags := some (spreadFlags inf.supportedFlags base.supportedFlags),
    positional := base.positional }

/-- `getSchemaForCommand` (`extension.ts` lines 119–135) over an explicit
static table (the module constant `COMMAND_SCHEMAS` becomes the `table`
argument; `getSchemaForCommand` below fixes it to `commandSchemas`). -/
def getSchemaWithTable (table : SchemaCache) (exe : String → Option String)
    (cache : SchemaCache) (cliCommand : String) : SchemaResult :=
  let base := (lookupCache table cliCommand).getD {}
  if base.supportedFlags.isSome && base.requiresApp.isSome && base.supportsJson.isSome then
    ⟨base, cache, []⟩
  else
    match inferSchemaFromHelp exe cache cliCommand with
    | ⟨none, c, sp⟩ => ⟨base, c, sp⟩
    | ⟨some inf, c, sp⟩ => ⟨mergeInferred base inf, c, sp⟩

/-- `getSchemaForCommand` against the real static table. -/
def getSchemaForCommand (exe : String → Option String) (cache : SchemaCache)
    (cliCommand : String) : SchemaResult :=
  getSchemaWithTable commandSchemas exe cache cliCommand

/-- The cache after a whole session of schema lookups (each call brings its
own oracle, modelling help text that may change between invocations). -/
def runSchemaCalls (calls : List ((String → Option String) × String))
    (cache : SchemaCache) : SchemaCache :=
  calls.foldl (fun c pc => (getSchemaForCommand pc.1 c pc.2).cache) cache

/-- An always-failing `exec` oracle: every spawn attempt errors out. -/
def noHelpExe : String → Option String := fun _ => none

/-- The empty schema (`{}` — no knowledge about the subcommand). -/
def emptySchema : CommandSchema := {}

theorem find?_append_of_none {α : Type} {p : α → Bool} {l₁ : List α} (l₂ : List α)
    (h : l₁.find? p = none) : (l₁ ++ l₂).find? p = l₂.find? p := by
  induction l₁ with
  | nil => simp
  | cons a t ih =>
    by_cases hpa : p a = true
    · rw [List.find?_cons_of_pos _ hpa] at h; cases h
    · rw [List.find?_cons_of_neg _ hpa] at h
      rw [List.cons_append, List.find?_cons_of_neg _ hpa]
      exact ih h

theorem find?_append_of_some {α : Type} {p : α → Bool} {l₁ : List α} {x : α} (l₂ : List α)
    (h : l₁.find? p = some x) : (l₁ ++ l₂).find? p = some x := by
  induction l₁ with
  | nil => cases h
  | cons a t ih =>
    by_cases hpa : p a = true
    · rw [List.find?_cons_of_pos _ hpa] at h
      rw [List.cons_append, List.find?_cons_of_pos _ hpa]
      exact h
    · rw [List.find?_cons_of_neg _ hpa] at h
      rw [List.cons_append, List.find?_cons_of_neg _ hpa]
      exact ih h

theorem any_eq_false_of_lookup_none (c : SchemaCache) (k : String)
    (h : lookupCache c k = none) : c.any (fun p => p.1 == k) = false := by
  unfold lookupCache at h
  rw [Option.map_eq_none'] at h
  rw [List.find?_eq_none] at h
  simp only [List.any_eq_false]
  exact h

theorem cacheSet_of_none (c : SchemaCache) (k : String) (v : CommandSchema)
    (h : lookupCache c k = none) : cacheSet c k v = c ++ [(k, v)] := by
  unfold cacheSet
  rw [any_eq_false_of_lookup_none c k h]
  simp

theorem lookupCache_set_self (c : SchemaCache) (k : String) (v : CommandSchema)
    (h : lookupCache c k = none) : lookupCache (cacheSet c k v) k = some v := by
  rw [cacheSet_of_none c k v h]
  unfold lookupCache at h ⊢
  have hf : c.find? (fun p => p.1 == k) = none := Option.map_eq_none'.mp h
  rw [find?_append_of_none _ hf]
  simp [List.find?]

theorem lookupCache_set_preserve (c : SchemaCache) (k m : String)
    (v s : CommandSchema) (hk : lookupCache c k = some s)
    (hm : lookupCache c m = none) :
    lookupCache (cacheSet c m v) k = some s := by
  rw [cacheSet_of_none c m v hm]
  unfold lookupCache at hk ⊢
  obtain ⟨x, hx, hmap⟩ := Option.map_eq_some'.mp hk
  rw [find?_append_of_some _ hx]
  simp [hmap]

theorem inferSchemaFromHelp_of_cached (exe : String → Option String)
    (c : SchemaCache) (cmd : String) (s : CommandSchema)
    (h : lookupCache c cmd = some s) :
    inferSchemaFromHelp exe c cmd = ⟨some s, c, []⟩ := by
  unfold inferSchemaFromHelp
  rw [h]

/-- What the lookup returns for a subcommand once the cache holds `s` for it:
the static short-circuit when the table entry is complete, the merge of the
static entry over the cached inference otherwise. -/
def schemaOfCached (table : SchemaCache) (cmd : String) (s : CommandSchema) :
    CommandSchema :=
  let base := (lookupCache table cmd).getD {}
  if base.supportedFlags.isSome && base.requiresApp.isSome && base.supportsJson.isSome then
    base
  else mergeInferred base s

theorem getSchemaWithTable_of_cached (table : SchemaCache)
    (exe : String → Option String) (c : SchemaCache) (cmd : String)
    (s : CommandSchema) (h : lookupCache c cmd = some s) :
    getSchemaWithTable table exe c cmd = ⟨schemaOfCached table cmd s, c, []⟩ := by
  unfold getSchemaWithTable schemaOfCached
  rw [inferSchemaFromHelp_of_cached exe c cmd s h]
  set base := (lookupCache table cmd).getD {} with hb
  by_cases hc : (base.supportedFlags.isSome && base.requiresApp.isSome &&
      base.supportsJson.isSome) = true
  · simp [hc]
  · simp [hc]

theorem lookupCache_infer_preserved (exe : String → Option String)
    (c : SchemaCache) (m k : String) (s : CommandSchema)
    (h : lookupCache c k = some s) :
    lookupCache (inferSchemaFromHelp exe c m).cache k = some s := by
  unfold inferSchemaFromHelp
  cases hm : lookupCache c m with
  | some t => simp only [hm]; exact h
  | none =>
    cases he : exe (probeCmd m) with
    | none => simp only [hm, he]; exact h
    | some out =>
      simp only [hm, he]
      exact lookupCache_set_preserve c k m _ s h hm

theorem lookupCache_getSchema_preserved (exe : String → Option String)
    (c : SchemaCache) (m k : String) (s : CommandSchema)
    (h : lookupCache c k = some s) :
    lookupCache (getSchemaForCommand exe c m).cache k = some s := by
  unfold getSchemaForCommand getSchemaWithTable
  set base := (lookupCache commandSchemas m).getD {} with hb
  by_cases hc : (base.supportedFlags.isSome && base.requiresApp.isSome &&
      base.supportsJson.isSome) = true
  · simp only [hc]
    simp
    exact h
  · have hpres := lookupCache_infer_preserved exe c m k s h
    rcases hi : inferSchemaFromHelp exe c m with ⟨r, c2, sp⟩
    rw [hi] at hpres
    cases r with
    | none => simp [hc, hi]; exact hpres
    | some inf => simp [hc, hi]; exact hpres

theorem runSchemaCalls_cons (pc : (String → Option String) × String)
    (rest : List ((String → Option String) × String)) (c : SchemaCache) :
    runSchemaCalls (pc :: rest) c =
      runSchemaCalls rest (getSchemaForCommand pc.1 c pc.2).cache := rfl

theorem lookupCache_runSchemaCalls_preserved
    (calls : List ((String → Option String) × String)) (c : SchemaCache)
    (k : String) (s : CommandSchema) (h : lookupCache c k = some s) :
    lookupCache (runSchemaCalls calls c) k = some s := by
  induction calls generalizing c with
  | nil => exact h
  | cons pc rest ih =>
    rw [runSchemaCalls_cons]
    exact ih _ (lookupCache_getSchema_preserved pc.1 c pc.2 k s h)

/-- Claim C4: for a subcommand whose static-table entry sets all three of
optional-flag support (`supportedFlags`), primary-required (`requiresApp`)
and structured-output support (`supportsJson`), the schema lookup returns
that entry unchanged, leaves the cache untouched and spawns no help-probe
process.  No entry of the shipped `commandSchemas` sets all three (the
condition is vacuous on the static table), so the theorem is stated over the
explicit table parameter of `getSchemaWithTable`, to which the module
constant is passed in `getSchemaForCommand`. -/
theorem getSchemaWithTable_static_complete (table : SchemaCache)
    (exe : String → Option String) (cache : SchemaCache) (cmd : String)
    (base : CommandSchema) (hbase : lookupCache table cmd = some base)
    (hflags : base.supportedFlags.isSome = true)
    (hreq : base.requiresApp.isSome = true)
    (hjson : base.supportsJson.isSome = true) :
    getSchemaWithTable table exe cache cmd = ⟨base, cache, []⟩ := by
  unfold getSchemaWithTable
  rw [hbase]
  simp [hflags, hreq, hjson]

/-- A fully specified static entry, witnessing the short-circuit. -/
def fullStaticSchema : CommandSchema :=
  { requiresApp := some false, supportsJson := some true, supportedFlags := some {} }

/-- Claim C4, witness: the short-circuit at a concrete complete entry. -/
theorem getSchemaWithTable_static_complete_example :
    getSchemaWithTable [("x:y", fullStaticSchema)] noHelpExe [] "x:y" =
      ⟨fullStaticSchema, [], []⟩ :=
  getSchemaWithTable_static_complete _ _ _ _ _ rfl rfl rfl rfl

/-- Claim C7, counterexample: for the subcommand `datacloud:connect` (whose
static entry is incomplete, so the probe is attempted) a probe spawn failure
does NOT yield an empty schema: the lookup falls back to the static entry,
whose add-on and authorization flags are known — execution proceeds with
known flags, contradicting the claim read over every subcommand. -/
theorem getSchemaForCommand_probe_failure_static_entry :
    (getSchemaForCommand noHelpExe [] "datacloud:connect").spawned =
      [probeCmd "datacloud:connect"] ∧
    (getSchemaForCommand noHelpExe [] "datacloud:connect").schema ≠ emptySchema ∧
    (getSchemaForCommand noHelpExe [] "datacloud:connect").schema.supportedFlags =
      some { addon := some true, authorization := some true } := by
  refine ⟨by decide, by decide, by decide⟩

/-- Claim C7 (amended): for a subcommand with no static entry (and no cached
inference), a help-probe spawn failure makes the lookup return the empty
schema — no flags known — with the failure swallowed rather than propagated
(the lookup returns normally), and nothing cached.  Subcommands with a static
entry fall back to that entry instead (see the counterexample). -/
theorem getSchemaForCommand_empty_on_probe_failure
    (exe : String → Option String) (cache : SchemaCache) (cmd : String)
    (hmiss : lookupCache commandSchemas cmd = none)
    (hcache : lookupCache cache cmd = none)
    (hexe : exe (probeCmd cmd) = none) :
    getSchemaForCommand exe cache cmd = ⟨emptySchema, cache, [probeCmd cmd]⟩ := by
  unfold getSchemaForCommand getSchemaWithTable inferSchemaFromHelp
  rw [hmiss, hcache, hexe]
  simp [emptySchema]

/-- Claim C7, witness: the empty schema at a concrete unknown subcommand. -/
theorem getSchemaForCommand_empty_on_probe_failure_example :
    getSchemaForCommand noHelpExe [] "foo:bar" =
      ⟨emptySchema, [], [probeCmd "foo:bar"]⟩ :=
  getSchemaForCommand_empty_on_probe_failure _ _ _ (by decide) rfl rfl

/-- Claim C8, counterexample: when the help probe FAILS, nothing is cached
(`inferSchemaFromHelp` caches only in the success path), so a second schema
request for the same uncached subcommand spawns the probe again — the probe
is not invoked "exactly once per subcommand per process lifetime". -/
theorem inferSchemaFromHelp_failed_probe_not_cached :
    lookupCache commandSchemas "foo:bar" = none ∧
    (inferSchemaFromHelp noHelpExe [] "foo:bar").spawned = [probeCmd "foo:bar"] ∧
    (inferSchemaFromHelp noHelpExe
        (inferSchemaFromHelp noHelpExe [] "foo:bar").cache "foo:bar").spawned =
      [probeCmd "foo:bar"] :=
  ⟨by decide, rfl, rfl⟩

/-- Claim C8 (amended): for a subcommand not in the static table whose first
help probe SUCCEEDS, the probe is spawned exactly once: the first lookup
spawns it and caches the inference, and every second lookup is served from
the cache with no spawn and the same result, whatever oracle it uses. -/
theorem getSchemaForCommand_probe_once_on_success
    (exe exe2 : String → Option String) (cache : SchemaCache) (cmd htext : String)
    (hmiss : lookupCache commandSchemas cmd = none)
    (hcache : lookupCache cache cmd = none)
    (hexe : exe (probeCmd cmd) = some htext) :
    (getSchemaForCommand exe cache cmd).spawned = [probeCmd cmd] ∧
    getSchemaForCommand exe2 (getSchemaForCommand exe cache cmd).cache cmd =
      ⟨(getSchemaForCommand exe cache cmd).schema,
        (getSchemaForCommand exe cache cmd).cache, []⟩ := by
  have hinf : inferSchemaFromHelp exe cache cmd =
      ⟨some (schemaFromHelp htext), cacheSet cache cmd (schemaFromHelp htext),
        [probeCmd cmd]⟩ := by
    unfold inferSchemaFromHelp
    rw [hcache, hexe]
  have h1 : getSchemaForCommand exe cache cmd =
      ⟨mergeInferred {} (schemaFromHelp htext),
        cacheSet cache cmd (schemaFromHelp htext), [probeCmd cmd]⟩ := by
    unfold getSchemaForCommand getSchemaWithTable
    rw [hmiss, hinf]
    simp
  have h2 : lookupCache (cacheSet cache cmd (schemaFromHelp htext)) cmd =
      some (schemaFromHelp htext) := lookupCache_set_self _ _ _ hcache
  constructor
  · rw [h1]
  · rw [h1]
    dsimp only
    rw [getSchemaForCommand, getSchemaWithTable_of_cached _ _ _ _ _ h2]
    unfold schemaOfCached
    rw [hmiss]
    simp

/-- Claim C8, witness: one successful probe at a concrete subcommand, then a
cache hit. -/
theorem getSchemaForCommand_probe_once_example :
    (getSchemaForCommand (fun _ => some "") [] "foo:bar").spawned =
      [probeCmd "foo:bar"] ∧
    getSchemaForCommand noHelpExe
        (getSchemaForCommand (fun _ => some "") [] "foo:bar").cache "foo:bar" =
      ⟨(getSchemaForCommand (fun _ => some "") [] "foo:bar").schema,
        (getSchemaForCommand (fun _ => some "") [] "foo:bar").cache, []⟩ :=
  getSchemaForCommand_probe_once_on_success (fun _ => some "") noHelpExe [] "foo:bar" ""
    (by decide) rfl rfl

/-- Claim C9: once a schema is cached for a subcommand, it is never replaced
or mutated for the rest of the session: after any further sequence of lookups
(each with its own oracle) the cache still holds the same entry, and the
schema the lookup returns for that subcommand — its derived flags included —
is the same one it returned at caching time, whatever oracle is used. -/
theorem getSchemaForCommand_stable_after_cache
    (cache : SchemaCache) (cmd : String) (s : CommandSchema)
    (h : lookupCache cache cmd = some s)
    (calls : List ((String → Option String) × String))
    (exe exe2 : String → Option String) :
    lookupCache (runSchemaCalls calls cache) cmd = some s ∧
    (getSchemaForCommand exe (runSchemaCalls calls cache) cmd).schema =
      (getSchemaForCommand exe2 cache cmd).schema := by
  have hp := lookupCache_runSchemaCalls_preserved calls cache cmd s h
  refine ⟨hp, ?_⟩
  rw [getSchemaForCommand, getSchemaForCommand,
    getSchemaWithTable_of_cached _ _ _ _ _ hp,
    getSchemaWithTable_of_cached _ _ _ _ _ h]

/-- Claim C9, witness: a concrete cached entry surviving a session of other
lookups. -/
theorem getSchemaForCommand_stable_example :
    lookupCache (runSchemaCalls [(noHelpExe, "a:b")] [("x:y", emptySchema)]) "x:y" =
      some emptySchema ∧
    (getSchemaForCommand noHelpExe
        (runSchemaCalls [(noHelpExe, "a:b")] [("x:y", emptySchema)]) "x:y").schema =
      (getSchemaForCommand noHelpExe [("x:y", emptySchema)] "x:y").schema :=
  getSchemaForCommand_stable_after_cache [("x:y", emptySchema)] "x:y" emptySchema rfl
    [(noHelpExe, "a:b")] noHelpExe noHelpExe

/-- The `applink.*` configuration values read by the runner (each is read
through `?.trim()` or `?? ''` at its point of use). -/
structure ApplinkConfig where
  defaultApp : Option String := none
  defaultAddon : Option String := none
  defaultConnection : Option String := none
  defaultAuthorization : Option String := none
deriving DecidableEq

/-- The interactive responses of one invocation: `none` models a cancelled
`showInputBox`, `some s` an entered string (possibly empty). -/
structure Prompts where
  appResponse : Option String := none
  positionalResponses : List (Option String) := []
  extraResponse : Option String := none
deriving DecidableEq

/-- JS `trim` on `String`. -/
def trimS (s : String) : String := String.mk (trimCL s.data)

/-- JS `toLowerCase` on `String` (ASCII). -/
def lowerS (s : String) : String := String.mk (lowerCL s.data)

/-- JS truthiness of a `boolean | undefined` value. -/
def truthyOB (o : Option Bool) : Bool := o == some true

/-- JS truthiness of a `string | undefined` value. -/
def truthyOS : Option String → Bool
  | some s => s != ""
  | none => false

/-- Truthiness of `schema.supportedFlags?.f`. -/
def flagOn (schema : CommandSchema) (f : SupportedFlags → Option Bool) : Bool :=
  match schema.supportedFlags with
  | some fl => truthyOB (f fl)
  | none => false

/-- The deprecated flag literal. -/
def authLit : List Char := "--authorization".data

/-- The greedy optional group `(\s+\S+)?`: consume one white-space run and the
following token when both are present, else nothing. -/
def afterAuthGroup (r : List Char) : List Char :=
  let ws := r.takeWhile isJsWs
  if ws.isEmpty then r
  else
    let r2 := r.drop ws.length
    let tok := r2.takeWhile (fun c => !isJsWs c)
    if tok.isEmpty then r else r2.drop tok.length

/-- Match the literal `--authorization` at the head, returning the rest. -/
def tryLitAuth (s : List Char) : Option (List Char) :=
  if isPrefB authLit s then some (s.drop authLit.length) else none

/-- One attempt of `(^|\s)--authorization(\s+\S+)?` at the current position
(`atStart` = the regex `^` applies here). -/
def tryMatchAuth (atStart : Bool) (s : List Char) : Option (List Char) :=
  match (if atStart then tryLitAuth s else none) with
  | some r => some (afterAuthGroup r)
  | none =>
    match s with
    | c :: rest => if isJsWs c then (tryLitAuth rest).map afterAuthGroup else none
    | [] => none

/-- The global replace by `' '` of every match, scanning left to right; the
fuel is an upper bound on the number of scanning steps (each step consumes at
least one character, so the input length suffices). -/
def scanAuth : Nat → Bool → List Char → List Char
  | 0, _, s => s
  | fuel + 1, atStart, s =>
    match tryMatchAuth atStart s with
    | some r => ' ' :: scanAuth fuel false r
    | none =>
      match s with
      | [] => []
      | c :: rest => c :: scanAuth fuel false rest

/-- JS `/(^|\s)--authorization(\s+\S+)?/.test(s)`. -/
def testAuthRegex (s : List Char) : Bool :=
  (tryMatchAuth true s).isSome ||
    anyPosition (fun suf => (tryMatchAuth false suf).isSome) s

/-- The full sanitization of line 330:
`extraArgs.replace(/(^|\s)--authorization(\s+\S+)?/g, ' ').replace(/\s+/g, ' ').trim()`.
The scanning fuel `s.data.length + 1` strictly exceeds the number of scanning
steps, since every step past the first consumes at least one character. -/
def sanitizeAuth (s : String) : String :=
  String.mk (trimCL (collapseWs (scanAuth (s.data.length + 1) true s.data)))

/-- JS `hay.includes(pat)`. -/
def includesS (hay pat : String) : Bool := isSubB pat.data hay.data

/-- The positional-argument prompt loop (lines 286–301): abort when a
required value is left empty or the prompt is cancelled, collect the trimmed
non-empty answers. -/
def collectPositionals : List PositionalArg → List (Option String) → Option (List String)
  | [], _ => some []
  | p :: ps, rs =>
    let val := rs.headD none
    if truthyOB p.required && (match val with | none => true | some v => trimS v == "")
    then none
    else
      match collectPositionals ps rs.tail with
      | none => none
      | some tail =>
        some ((match val with
               | some v => if trimS v != "" then [trimS v] else []
               | none => []) ++ tail) 

/-- JS `Array.prototype.join(' ')` (the `parts.join(' ')` of line 356). -/
def joinSpace : List String → String
  | [] => ""
  | [p] => p
  | p :: ps => p ++ " " ++ joinSpace ps

/-- The argument-vector assembly of `runHerokuCommand` (`extension.ts`
lines 249–395).  The result is `some cmd` when the runner reaches the final
`exec(cmd, …)` (the joined command line it spawns) and `none` when the
invocation aborts first (missing CLI or plugin, required app left empty,
required positional left empty).  Prompts, configuration and the schema
lookup's `exec` oracle are explicit inputs; the environment-variable
preparation of lines 364–383 affects neither the command line nor the abort
behaviour and is not modelled. -/
def runHerokuCommand (exe : String → Option String) (cache : SchemaCache)
    (cfg : ApplinkConfig) (hasCli hasPlugin : Bool) (pr : Prompts)
    (cliCommand : String) : Option String :=
  if !hasCli then none
  else if !hasPlugin then none
  else
    let schema := (getSchemaForCommand exe cache cliCommand).schema
    let defaultApp := cfg.defaultApp.getD ""
    let appStep : Option (Option String) :=
      if defaultApp == "" then
        if truthyOB schema.requiresApp &&
            (match pr.appResponse with
             | none => true
             | some s2 => trimS s2 == "") then none
        else some pr.appResponse
      else some (some defaultApp)
    match appStep with
    | none => none
    | some app =>
      match collectPositionals (schema.positional.getD []) pr.positionalResponses with
      | none => none
      | some posInputs =>
        let extraArgs0 := pr.extraResponse
        let parts0 := ["heroku", cliCommand] ++ posInputs ++
          (match app with
           | some a => if trimS a != "" then ["-a", trimS a] else []
           | none => [])
        let defaultAddon := cfg.defaultAddon.map trimS
        let defaultConnection := cfg.defaultConnection.map trimS
        let defaultAuthorization := cfg.defaultAuthorization.map trimS
        let extraArgs :=
          if flagOn schema (fun f => f.authorizationName) &&
              (match extraArgs0 with
               | some e => (e != "") && testAuthRegex e.data
               | none => false) then
            some (sanitizeAuth (extraArgs0.getD ""))
          else extraArgs0
        let extra := lowerS (extraArgs.getD "")
        let parts1 := parts0 ++
          (if flagOn schema (fun f => f.addon) && truthyOS defaultAddon &&
              !includesS extra "--add-on" && !parts0.contains "--add-on" then
            ["--add-on", defaultAddon.getD ""] else [])
        let parts2 := parts1 ++
          (if flagOn schema (fun f => f.connection) && truthyOS defaultConnection &&
              !includesS extra "--connection" && !parts1.contains "--connection" then
            ["--connection", defaultConnection.getD ""] else [])
        let parts3 := parts2 ++
          (if flagOn schema (fun f => f.authorization) && truthyOS defaultAuthorization &&
              !includesS extra "--authorization" && !parts2.contains "--authorization" then
            ["--authorization", defaultAuthorization.getD ""] else [])
        let parts4 := parts3 ++
          (if flagOn schema (fun f => f.authorizationName) && truthyOS defaultAuthorization &&
              !includesS extra "--authorization-name" && !parts3.contains "--authorization-name" then
            ["--authorization-name", defaultAuthorization.getD ""] else [])
        let parts5 := parts4 ++
          (match extraArgs with
           | some e => if (e != "") && (trimS e != "") then [trimS e] else []
           | none => [])
        some (joinSpace parts5)

/-- The white-space-delimited tokens of an assembled command line. -/
def wsTokensS (s : String) : List String := (wsTokens s.data).map String.mk


/-- Claim C6: when the schema marks the primary app argument required, no
default app is configured, and the app prompt is cancelled or answered with
blanks, the runner aborts the invocation: it returns `none`, i.e. never
reaches the final `exec` of the subcommand's external process. -/
theorem runHerokuCommand_aborts_without_app
    (exe : String → Option String) (cache : SchemaCache) (cfg : ApplinkConfig)
    (hasCli hasPlugin : Bool) (pr : Prompts) (cliCommand : String)
    (hnodef : cfg.defaultApp.getD "" = "")
    (hreq : (getSchemaForCommand exe cache cliCommand).schema.requiresApp = some true)
    (hempty : (match pr.appResponse with
               | none => true
               | some s2 => trimS s2 == "") = true) :
    runHerokuCommand exe cache cfg hasCli hasPlugin pr cliCommand = none := by
  unfold runHerokuCommand
  cases hasCli with
  | false => rfl
  | true =>
    cases hasPlugin with
    | false => rfl
    | true =>
      have hda : (cfg.defaultApp.getD "" == "") = true := by
        rw [hnodef]; rfl
      simp only [Bool.not_true, Bool.false_eq_true, if_false, hda, if_true, hreq,
        truthyOB, hempty]
      simp

/-- Claim C6, witness: `salesforce:publish` (statically `requiresApp`), no
configured default app, cancelled prompt — the runner spawns nothing. -/
theorem runHerokuCommand_aborts_without_app_example :
    runHerokuCommand noHelpExe [] {} true true {} "salesforce:publish" = none :=
  runHerokuCommand_aborts_without_app noHelpExe [] {} true true {}
    "salesforce:publish" rfl (by decide) rfl

/-- The configuration of the C5 scenario: a default app (so no prompt is
involved) and a configured default authorization. -/
def deployCfg : ApplinkConfig :=
  { defaultApp := some "myapp", defaultAuthorization := some "authz" }

/-- Claim C5, counterexample: for `datacloud:deploy` (whose schema marks
`--authorization-name` supported) and the free-form text
`"--authorization--authorization --authorization"` — which does contain the
deprecated token `--authorization`, as its last white-space-delimited token —
the sanitizer's global replace leaves a bare `--authorization` behind (the
second occurrence abuts the first, so the regex consumes the run up to a
non-word position and the leftover is re-exposed once the true token is
removed), and the assembled command line still carries the deprecated token. -/
theorem runHerokuCommand_deprecated_token_survives :
    ("--authorization" ∈ wsTokensS "--authorization--authorization --authorization") ∧
    flagOn (getSchemaForCommand noHelpExe [] "datacloud:deploy").schema
      (fun f => f.authorizationName) = true ∧
    runHerokuCommand noHelpExe [] deployCfg true true
        { extraResponse := some "--authorization--authorization --authorization" }
        "datacloud:deploy" =
      some "heroku datacloud:deploy -a myapp --authorization-name authz --authorization" ∧
    ("--authorization" ∈
      wsTokensS "heroku datacloud:deploy -a myapp --authorization-name authz --authorization") := by
  refine ⟨by decide, by decide, by decide, by decide⟩

/-- Claim C10: the fallback whitespace parser produces no record for any
trimmed line beginning with the word `id` (case-insensitively, at a word
boundary) — such lines are dropped — and every record it does produce carries
an `"id"` key equal to the first white-space-delimited token of the line it
came from. -/
theorem parseFallbackRows_id_discipline (text : String) :
    (∀ l, isIdHeaderLine l = true → fallbackRow l = none) ∧
    (∀ r ∈ parseFallbackRows text, ∃ l ∈ prepFallbackLines text,
      isIdHeaderLine l = false ∧
      ∃ t ts, fallbackTokens l = t :: ts ∧ lookupRec r "id" = some t) := by
  constructor
  · intro l h
    unfold fallbackRow
    rw [h]
    simp
  · intro r hr
    unfold parseFallbackRows at hr
    rw [List.mem_filterMap] at hr
    obtain ⟨l, hl, hrow⟩ := hr
    refine ⟨l, hl, ?_⟩
    cases hid : isIdHeaderLine l with
    | true =>
      unfold fallbackRow at hrow
      rw [hid] at hrow
      simp at hrow
    | false =>
      refine ⟨rfl, ?_⟩
      unfold fallbackRow at hrow
      rw [hid] at hrow
      by_cases hdiv : isFallbackDivider l = true
      · rw [hdiv] at hrow; simp at hrow
      · rw [Bool.not_eq_true] at hdiv
        rw [hdiv] at hrow
        simp only [Bool.or_self, if_false] at hrow
        cases htok : fallbackTokens l with
        | nil => rw [htok] at hrow; simp at hrow
        | cons t rest =>
          rw [htok] at hrow
          refine ⟨t, rest, rfl, ?_⟩
          cases rest with
          | nil =>
            simp only [Bool.false_eq_true, if_false, Option.some.injEq] at hrow
            subst hrow
            simp [recInsert, lookupRec, List.find?]
          | cons t1 rest1 =>
            cases rest1 with
            | nil =>
              simp only [Bool.false_eq_true, if_false, Option.some.injEq] at hrow
              subst hrow
              simp [recInsert, lookupRec, List.find?]
            | cons t2 rest2 =>
              simp only [Bool.false_eq_true, if_false, Option.some.injEq] at hrow
              subst hrow
              simp [recInsert, lookupRec, List.find?]

theorem char_toNat_ofNat (n : Nat) (h : n.isValidChar) : (Char.ofNat n).toNat = n := by
  unfold Char.ofNat
  rw [dif_pos h]
  unfold Char.ofNatAux Char.toNat
  show (UInt32.ofNatCore n _).toNat = n
  rfl

theorem isJsWs_eq_false_of_alpha (c : Char) (h1 : 65 ≤ c.toNat) (h2 : c.toNat ≤ 122) :
    isJsWs c = false := by
  unfold isJsWs
  simp only [Bool.or_eq_false_iff, Bool.and_eq_false_iff, beq_eq_false_iff_ne, ne_eq,
    decide_eq_false_iff_not, not_le]
  omega

theorem isJsWs_lowCh (c : Char) : isJsWs (lowCh c) = isJsWs c := by
  unfold lowCh
  by_cases h : (65 ≤ c.toNat && c.toNat ≤ 90) = true
  · rw [if_pos h]
    rw [Bool.and_eq_true] at h
    have h1 : 65 ≤ c.toNat := by simpa using h.1
    have h2 : c.toNat ≤ 90 := by simpa using h.2
    have hv : (c.toNat + 32).isValidChar := Or.inl (by omega)
    have hn : (Char.ofNat (c.toNat + 32)).toNat = c.toNat + 32 := char_toNat_ofNat _ hv
    rw [isJsWs_eq_false_of_alpha _ (by omega) (by omega),
      isJsWs_eq_false_of_alpha c (by omega) (by omega)]
  · rw [if_neg h]

theorem wsTokensStep_ws {c : Char} (hc : isJsWs c = true)
    (st : List (List Char) × List Char) :
    wsTokensStep c st = (if st.2 = [] then st.1 else st.2 :: st.1, []) := by
  unfold wsTokensStep
  rw [if_pos hc]

theorem wsTokensStep_nonws {c : Char} (hc : isJsWs c = false)
    (st : List (List Char) × List Char) :
    wsTokensStep c st = (st.1, c :: st.2) := by
  unfold wsTokensStep
  simp [hc]

theorem wsTokens_foldr_base (T : List (List Char)) (a : List Char) :
    List.foldr wsTokensStep (T, []) a =
      ((List.foldr wsTokensStep ([], []) a).1 ++ T,
        (List.foldr wsTokensStep ([], []) a).2) := by
  induction a with
  | nil => simp
  | cons c a' ih =>
    rw [List.foldr_cons, List.foldr_cons, ih]
    by_cases hc : isJsWs c = true
    · rw [wsTokensStep_ws hc, wsTokensStep_ws hc]
      by_cases hp : (List.foldr wsTokensStep ([], []) a').2 = []
      · simp [hp]
      · simp [hp]
    · rw [Bool.not_eq_true] at hc
      rw [wsTokensStep_nonws hc, wsTokensStep_nonws hc]

/-- Finalizing a token fold whose bottom state already holds tokens `T`. -/
theorem wsTokens_append_state (s : List Char) (T : List (List Char)) :
    (if (List.foldr wsTokensStep (T, []) s).2 = []
     then (List.foldr wsTokensStep (T, []) s).1
     else (List.foldr wsTokensStep (T, []) s).2 ::
       (List.foldr wsTokensStep (T, []) s).1) = wsTokens s ++ T := by
  rw [wsTokens_foldr_base]
  unfold wsTokens
  by_cases hp : (List.foldr wsTokensStep ([], []) s).2 = []
  · simp [hp]
  · simp [hp]

theorem foldr_wsTokens_ws_head (d : Char) (y : List Char) (hd : isJsWs d = true) :
    List.foldr wsTokensStep ([], []) (d :: y) = (wsTokens y, []) := by
  rw [List.foldr_cons, wsTokensStep_ws hd]
  rfl

/-- Tokens of a string split at an explicit white-space separator. -/
theorem wsTokens_append_sep (a : List Char) (d : Char) (b : List Char)
    (hd : isJsWs d = true) :
    wsTokens (a ++ d :: b) = wsTokens a ++ wsTokens b := by
  have h1 : List.foldr wsTokensStep ([], []) (a ++ d :: b) =
      List.foldr wsTokensStep (wsTokens b, []) a := by
    rw [List.foldr_append, foldr_wsTokens_ws_head d b hd]
  show (if (List.foldr wsTokensStep ([], []) (a ++ d :: b)).2 = [] then _ else _) = _
  rw [h1]
  exact wsTokens_append_state a (wsTokens b)

theorem wsTokens_cons_ws (d : Char) (y : List Char) (hd : isJsWs d = true) :
    wsTokens (d :: y) = wsTokens y := by
  unfold wsTokens
  rw [foldr_wsTokens_ws_head d y hd]
  rfl

theorem foldr_wsTokens_all_nonws (w : List Char) (T : List (List Char))
    (hw : ∀ c ∈ w, isJsWs c = false) :
    List.foldr wsTokensStep (T, []) w = (T, w) := by
  induction w with
  | nil => rfl
  | cons c w' ih =>
    rw [List.foldr_cons, ih (fun x hx => hw x (List.mem_cons_of_mem c hx))]
    rw [wsTokensStep_nonws (hw c (List.mem_cons_self c w'))]

theorem wsTokens_of_nonws (w : List Char) (hne : w ≠ [])
    (hw : ∀ c ∈ w, isJsWs c = false) : wsTokens w = [w] := by
  unfold wsTokens
  rw [foldr_wsTokens_all_nonws w [] hw]
  simp [hne]

theorem foldr_wsTokens_all_ws (w : List Char) (hw : ∀ c ∈ w, isJsWs c = true) :
    List.foldr wsTokensStep ([], []) w = ([], []) := by
  induction w with
  | nil => rfl
  | cons c w' ih =>
    rw [List.foldr_cons, ih (fun x hx => hw x (List.mem_cons_of_mem c hx))]
    rw [wsTokensStep_ws (hw c (List.mem_cons_self c w'))]
    rfl

theorem wsTokens_append_all_ws (v w : List Char) (hw : ∀ c ∈ w, isJsWs c = true) :
    wsTokens (v ++ w) = wsTokens v := by
  unfold wsTokens
  rw [List.foldr_append, foldr_wsTokens_all_ws w hw]

theorem wsTokens_dropWhile (s : List Char) :
    wsTokens (s.dropWhile isJsWs) = wsTokens s := by
  induction s with
  | nil => rfl
  | cons c s' ih =>
    by_cases hc : isJsWs c = true
    · rw [List.dropWhile_cons_of_pos hc, ih, wsTokens_cons_ws c s' hc]
    · rw [List.dropWhile_cons_of_neg hc]

theorem wsTokens_trimCL (s : List Char) : wsTokens (trimCL s) = wsTokens s := by
  unfold trimCL
  have hws : ∀ c ∈ ((s.dropWhile isJsWs).reverse.takeWhile isJsWs).reverse,
      isJsWs c = true := by
    intro c hc
    rw [List.mem_reverse] at hc
    exact List.mem_takeWhile_imp hc
  have hsplit : ((s.dropWhile isJsWs).reverse.dropWhile isJsWs).reverse ++
      ((s.dropWhile isJsWs).reverse.takeWhile isJsWs).reverse = s.dropWhile isJsWs := by
    rw [← List.reverse_append, List.takeWhile_append_dropWhile, List.reverse_reverse]
  calc wsTokens ((s.dropWhile isJsWs).reverse.dropWhile isJsWs).reverse
      = wsTokens (((s.dropWhile isJsWs).reverse.dropWhile isJsWs).reverse ++
          ((s.dropWhile isJsWs).reverse.takeWhile isJsWs).reverse) :=
        (wsTokens_append_all_ws _ _ hws).symm
    _ = wsTokens (s.dropWhile isJsWs) := by rw [hsplit]
    _ = wsTokens s := wsTokens_dropWhile s

theorem collapseRuns_cons (p : Char → Bool) (rep c : Char) (s : List Char) :
    collapseRuns p rep (c :: s) =
      (if p c then
        (match collapseRuns p rep s with
         | a :: rest => if a = rep then a :: rest else rep :: a :: rest
         | [] => [rep])
       else c :: collapseRuns p rep s) := by
  unfold collapseRuns
  rw [List.foldr_cons]
  by_cases hc : p c = true
  · rw [if_pos hc, if_pos hc]
    cases List.foldr _ [] s with
    | nil => rfl
    | cons a rest => rfl
  · rw [if_neg hc, if_neg hc]

theorem collapseWs_ne_nil (s : List Char) (h : s ≠ []) : collapseWs s ≠ [] := by
  cases s with
  | nil => exact absurd rfl h
  | cons c s' =>
    unfold collapseWs
    rw [collapseRuns_cons]
    by_cases hc : isJsWs c = true
    · rw [if_pos hc]
      cases collapseRuns isJsWs ' ' s' with
      | nil => simp
      | cons a rest =>
        by_cases ha : a = ' ' <;> simp [ha]
    · rw [if_neg hc]
      simp

theorem collapseWs_head_ws (s : List Char) (a : Char) (rest : List Char)
    (h : collapseWs s = a :: rest) (ha : a = ' ') :
    ∃ d t, s = d :: t ∧ isJsWs d = true := by
  cases s with
  | nil => simp [collapseWs, collapseRuns] at h
  | cons d t =>
    by_cases hd : isJsWs d = true
    · exact ⟨d, t, rfl, hd⟩
    · exfalso
      unfold collapseWs at h
      rw [collapseRuns_cons, if_neg hd] at h
      have hda : d = a := by
        injection h with h1 _
      subst ha
      rw [hda] at hd
      exact hd (by decide)

theorem collapseWs_state (s : List Char) :
    List.foldr wsTokensStep ([], []) (collapseWs s) =
      List.foldr wsTokensStep ([], []) s := by
  induction s with
  | nil => rfl
  | cons c s' ih =>
    by_cases hc : isJsWs c = true
    · have hcs : collapseWs (c :: s') =
          (match collapseWs s' with
           | a :: rest => if a = ' ' then a :: rest else ' ' :: a :: rest
           | [] => [' ']) := by
        unfold collapseWs
        rw [collapseRuns_cons, if_pos hc]
      cases hcol : collapseWs s' with
      | nil =>
        have hs' : s' = [] := by
          by_contra hne
          exact collapseWs_ne_nil s' hne hcol
        subst hs'
        rw [hcs, hcol]
        show List.foldr wsTokensStep ([], []) [' '] = List.foldr wsTokensStep ([], []) [c]
        rw [List.foldr_cons, List.foldr_cons,
          wsTokensStep_ws (by decide : isJsWs ' ' = true), wsTokensStep_ws hc]
      | cons a rest =>
        rw [hcs, hcol]
        show List.foldr wsTokensStep ([], [])
            (if a = ' ' then a :: rest else ' ' :: a :: rest) =
          List.foldr wsTokensStep ([], []) (c :: s')
        by_cases ha : a = ' '
        · rw [if_pos ha, ← hcol, ih]
          obtain ⟨d, t, hdt, hd⟩ := collapseWs_head_ws s' a rest hcol ha
          subst hdt
          rw [List.foldr_cons, List.foldr_cons, wsTokensStep_ws hc, wsTokensStep_ws hd]
          simp [wsTokensStep_ws hd]
        · rw [if_neg ha, ← hcol]
          rw [List.foldr_cons, List.foldr_cons, ih,
            wsTokensStep_ws (by decide : isJsWs ' ' = true), wsTokensStep_ws hc]
    · have hcs : collapseWs (c :: s') = c :: collapseWs s' := by
        unfold collapseWs
        rw [collapseRuns_cons, if_neg hc]
      rw [Bool.not_eq_true] at hc
      rw [hcs, List.foldr_cons, List.foldr_cons, ih, wsTokensStep_nonws hc]

theorem wsTokens_collapseWs (s : List Char) : wsTokens (collapseWs s) = wsTokens s := by
  unfold wsTokens
  rw [collapseWs_state]

theorem lowerCL_state (s : List Char) :
    List.foldr wsTokensStep ([], []) (lowerCL s) =
      ((List.foldr wsTokensStep ([], []) s).1.map lowerCL,
        lowerCL (List.foldr wsTokensStep ([], []) s).2) := by
  induction s with
  | nil => rfl
  | cons c s' ih =>
    show List.foldr wsTokensStep ([], []) (lowCh c :: lowerCL s') = _
    rw [List.foldr_cons, List.foldr_cons, ih]
    by_cases hc : isJsWs c = true
    · rw [wsTokensStep_ws (by rw [isJsWs_lowCh]; exact hc), wsTokensStep_ws hc]
      by_cases hp : (List.foldr wsTokensStep ([], []) s').2 = []
      · simp [hp, lowerCL]
      · have : lowerCL (List.foldr wsTokensStep ([], []) s').2 ≠ [] := by
          simpa [lowerCL] using hp
        simp [hp, this, lowerCL]
    · rw [Bool.not_eq_true] at hc
      rw [wsTokensStep_nonws (by rw [isJsWs_lowCh]; exact hc), wsTokensStep_nonws hc]
      simp [lowerCL]

theorem wsTokens_lowerCL (s : List Char) :
    wsTokens (lowerCL s) = (wsTokens s).map lowerCL := by
  unfold wsTokens
  rw [lowerCL_state]
  by_cases hp : (List.foldr wsTokensStep ([], []) s).2 = []
  · simp [hp, lowerCL]
  · have : lowerCL (List.foldr wsTokensStep ([], []) s).2 ≠ [] := by
      simpa [lowerCL] using hp
    simp [hp, this, lowerCL]

theorem anyPosition_cons (q : List Char → Bool) (c : Char) (s : List Char) :
    anyPosition q (c :: s) = (q (c :: s) || anyPosition q s) := rfl

theorem anyPosition_iff (q : List Char → Bool) (s : List Char) :
    anyPosition q s = true ↔ ∃ u v, s = u ++ v ∧ q v = true := by
  induction s with
  | nil =>
    constructor
    · intro h
      exact ⟨[], [], rfl, h⟩
    · rintro ⟨u, v, huv, hq⟩
      have hu : u = [] := by
        cases u with
        | nil => rfl
        | cons a t => cases huv
      have hv : v = [] := by
        cases u with
        | nil => simpa using huv.symm
        | cons a t => cases huv
      subst hu
      subst hv
      exact hq
  | cons c s' ih =>
    rw [anyPosition_cons, Bool.or_eq_true]
    constructor
    · rintro (h | h)
      · exact ⟨[], c :: s', rfl, h⟩
      · obtain ⟨u, v, huv, hq⟩ := ih.mp h
        exact ⟨c :: u, v, by rw [huv]; rfl, hq⟩
    · rintro ⟨u, v, huv, hq⟩
      cases u with
      | nil =>
        left
        have hv : v = c :: s' := by simpa using huv.symm
        rw [hv] at hq
        exact hq
      | cons a u' =>
        right
        apply ih.mpr
        injection huv with h1 h2
        exact ⟨u', v, h2, hq⟩

theorem isPrefB_iff (p s : List Char) :
    isPrefB p s = true ↔ ∃ t, s = p ++ t := by
  induction p generalizing s with
  | nil =>
    simp [isPrefB]
  | cons a p' ih =>
    cases s with
    | nil =>
      simp [isPrefB]
    | cons b s' =>
      show (a == b && isPrefB p' s') = true ↔ _
      rw [Bool.and_eq_true, beq_iff_eq, ih]
      constructor
      · rintro ⟨hab, t, ht⟩
        exact ⟨t, by rw [hab, ht]; rfl⟩
      · rintro ⟨t, ht⟩
        injection ht with h1 h2
        exact ⟨h1.symm, t, h2⟩

theorem isSubB_iff (p s : List Char) :
    isSubB p s = true ↔ ∃ u t, s = u ++ p ++ t := by
  unfold isSubB
  rw [anyPosition_iff]
  constructor
  · rintro ⟨u, v, huv, hq⟩
    obtain ⟨t, ht⟩ := (isPrefB_iff p v).mp hq
    exact ⟨u, t, by rw [huv, ht, List.append_assoc]⟩
  · rintro ⟨u, t, ht⟩
    exact ⟨u, p ++ t, by rw [ht, List.append_assoc], (isPrefB_iff p (p ++ t)).mpr ⟨t, rfl⟩⟩

theorem isSubB_cons (p : List Char) (c : Char) (s : List Char) :
    isSubB p (c :: s) = (isPrefB p (c :: s) || isSubB p s) := rfl

theorem isPrefB_self_append (p t : List Char) : isPrefB p (p ++ t) = true :=
  (isPrefB_iff p (p ++ t)).mpr ⟨t, rfl⟩

theorem isSubB_of_isPrefB {p s : List Char} (h : isPrefB p s = true) :
    isSubB p s = true := by
  cases s with
  | nil => exact h
  | cons c s' => rw [isSubB_cons, h, Bool.true_or]

theorem isSubB_of_cons {p : List Char} {s : List Char} (c : Char)
    (h : isSubB p s = true) : isSubB p (c :: s) = true := by
  rw [isSubB_cons, h, Bool.or_true]

/-- A pattern that begins with the deprecated literal: any occurrence of the
longer pattern is an occurrence of the literal. -/
theorem isSubB_of_sub_of_prefix {p' p s : List Char} (hpre : isPrefB p' p = true)
    (h : isSubB p s = true) : isSubB p' s = true := by
  obtain ⟨u, t, ht⟩ := (isSubB_iff p s).mp h
  obtain ⟨w, hw⟩ := (isPrefB_iff p' p).mp hpre
  refine (isSubB_iff p' s).mpr ⟨u, w ++ t, ?_⟩
  rw [ht, hw]
  simp [List.append_assoc]

/-- The pending component of the token fold is the longest non-white-space
prefix. -/
theorem wsTokens_pend_eq_takeWhile (s : List Char) :
    (List.foldr wsTokensStep ([], []) s).2 = s.takeWhile (fun c => !isJsWs c) := by
  induction s with
  | nil => rfl
  | cons c s' ih =>
    rw [List.foldr_cons]
    by_cases hc : isJsWs c = true
    · rw [wsTokensStep_ws hc]
      rw [List.takeWhile_cons]
      simp [hc]
    · rw [Bool.not_eq_true] at hc
      rw [wsTokensStep_nonws hc]
      rw [List.takeWhile_cons]
      simp [hc, ih]

theorem isPrefB_takeWhile {p s : List Char} (hp : ∀ c ∈ p, isJsWs c = false)
    (h : isPrefB p s = true) : isPrefB p (s.takeWhile (fun c => !isJsWs c)) = true := by
  induction p generalizing s with
  | nil => rfl
  | cons a p' ih =>
    cases s with
    | nil => cases h
    | cons b s' =>
      have hab : (a == b) = true ∧ isPrefB p' s' = true := by
        simpa [isPrefB, Bool.and_eq_true] using h
      have hb : isJsWs b = false := by
        rw [← beq_iff_eq.mp hab.1]
        exact hp a (List.mem_cons_self a p')
      rw [List.takeWhile_cons]
      simp only [hb, Bool.not_false, if_true]
      show (a == b && isPrefB p' (s'.takeWhile fun c => !isJsWs c)) = true
      rw [Bool.and_eq_true]
      exact ⟨hab.1, ih (fun x hx => hp x (List.mem_cons_of_mem a hx)) hab.2⟩

/-- A white-space-free occurrence lies within one token. -/
theorem isSubB_token (p : List Char) (hp : ∀ c ∈ p, isJsWs c = false)
    (hne : p ≠ []) :
    ∀ s, isSubB p s = true → ∃ w ∈ wsTokens s, isSubB p w = true := by
  intro s
  induction s with
  | nil =>
    intro h
    cases p with
    | nil => exact absurd rfl hne
    | cons a p' => cases h
  | cons c s' ih =>
    intro h
    rw [isSubB_cons, Bool.or_eq_true] at h
    by_cases hc : isJsWs c = true
    · have hsub : isSubB p s' = true := by
        rcases h with h | h
        · exfalso
          cases p with
          | nil => exact absurd rfl hne
          | cons a p' =>
            have hab : (a == c) = true ∧ isPrefB p' s' = true := by
              simpa [isPrefB, Bool.and_eq_true] using h
            have : isJsWs a = false := hp a (List.mem_cons_self a p')
            rw [beq_iff_eq.mp hab.1, hc] at this
            cases this
        · exact h
      obtain ⟨w, hw, hsubw⟩ := ih hsub
      exact ⟨w, by rw [wsTokens_cons_ws c s' hc]; exact hw, hsubw⟩
    · rw [Bool.not_eq_true] at hc
      have hfirst : wsTokens (c :: s') =
          (c :: (List.foldr wsTokensStep ([], []) s').2) ::
            (List.foldr wsTokensStep ([], []) s').1 := by
        unfold wsTokens
        rw [List.foldr_cons, wsTokensStep_nonws hc]
        simp
      rcases h with h | h
      · -- the occurrence starts here: p is a prefix of the first token
        cases p with
        | nil => exact absurd rfl hne
        | cons a p' =>
          have hab : (a == c) = true ∧ isPrefB p' s' = true := by
            simpa [isPrefB, Bool.and_eq_true] using h
          have hp' : ∀ x ∈ p', isJsWs x = false :=
            fun x hx => hp x (List.mem_cons_of_mem a hx)
          have hpref : isPrefB p' ((List.foldr wsTokensStep ([], []) s').2) = true := by
            rw [wsTokens_pend_eq_takeWhile]
            exact isPrefB_takeWhile hp' hab.2
          refine ⟨c :: (List.foldr wsTokensStep ([], []) s').2,
            by rw [hfirst]; exact List.mem_cons_self _ _, ?_⟩
          apply isSubB_of_isPrefB
          show (a == c && isPrefB p' ((List.foldr wsTokensStep ([], []) s').2)) = true
          rw [Bool.and_eq_true]
          exact ⟨hab.1, hpref⟩
      · -- the occurrence is further right
        obtain ⟨w, hw, hsubw⟩ := ih h
        have hmem : w ∈ (List.foldr wsTokensStep ([], []) s').1 ∨
            (w = (List.foldr wsTokensStep ([], []) s').2 ∧
              (List.foldr wsTokensStep ([], []) s').2 ≠ []) := by
          unfold wsTokens at hw
          by_cases hpend : (List.foldr wsTokensStep ([], []) s').2 = []
          · left
            simpa [hpend] using hw
          · rw [if_neg hpend] at hw
            rcases List.mem_cons.mp hw with h1 | h1
            · right
              exact ⟨h1, hpend⟩
            · left
              exact h1
        rcases hmem with h1 | ⟨h1, _⟩
        · exact ⟨w, by rw [hfirst]; exact List.mem_cons_of_mem _ h1, hsubw⟩
        · refine ⟨c :: (List.foldr wsTokensStep ([], []) s').2,
            by rw [hfirst]; exact List.mem_cons_self _ _, ?_⟩
          rw [← h1]
          exact isSubB_of_cons c hsubw

/-- Character-level `join(' ')` of a token list. -/
def interSp : List (List Char) → List Char
  | [] => []
  | [w] => w
  | w :: ws => w ++ ' ' :: interSp ws

/-- What the global replace removes: every standalone `--authorization` token
together with the one token its greedy `(\s+\S+)?` group swallows. -/
def dropAuthToks : List (List Char) → List (List Char)
  | [] => []
  | w :: ws =>
    if w = authLit then
      (match ws with
       | [] => []
       | _ :: ws2 => dropAuthToks ws2)
    else w :: dropAuthToks ws

theorem interSp_cons (w : List Char) (ws : List (List Char)) :
    interSp (w :: ws) = (match ws with
      | [] => w
      | _ :: _ => w ++ ' ' :: interSp ws) := by
  cases ws with
  | nil => rfl
  | cons a t => rfl

theorem scanAuth_nil (n : Nat) (b : Bool) : scanAuth n b [] = [] := by
  cases n with
  | zero => rfl
  | succ m => cases b <;> rfl

theorem scanAuth_succ_none (n : Nat) (b : Bool) (c : Char) (rest : List Char)
    (h : tryMatchAuth b (c :: rest) = none) :
    scanAuth (n + 1) b (c :: rest) = c :: scanAuth n false rest := by
  simp only [scanAuth, h]

theorem scanAuth_succ_some (n : Nat) (b : Bool) (s r : List Char)
    (h : tryMatchAuth b s = some r) :
    scanAuth (n + 1) b s = ' ' :: scanAuth n false r := by
  simp only [scanAuth, h]

theorem tryMatchAuth_false_nonws (c : Char) (rest : List Char)
    (hc : isJsWs c = false) : tryMatchAuth false (c :: rest) = none := by
  unfold tryMatchAuth
  simp [hc]

theorem tryLitAuth_self (t : List Char) : tryLitAuth (authLit ++ t) = some t := by
  unfold tryLitAuth
  rw [if_pos (isPrefB_self_append authLit t)]
  rw [List.drop_left]

theorem tryLitAuth_none (s : List Char) (h : isPrefB authLit s = false) :
    tryLitAuth s = none := by
  unfold tryLitAuth
  simp [h]

theorem authLit_nonws : ∀ c ∈ authLit, isJsWs c = false := by decide

theorem lowerCL_authLit : lowerCL authLit = authLit := by decide

/-- The literal cannot start at a clean non-`--authorization` token. -/
theorem not_pref_auth (w tail : List Char) (_hne : w ≠ [])
    (_hnws : ∀ c ∈ w, isJsWs c = false)
    (hnsub : isSubB authLit (lowerCL w) = false)
    (htail : tail = [] ∨ ∃ d tl, tail = d :: tl ∧ isJsWs d = true) :
    isPrefB authLit (w ++ tail) = false := by
  by_contra hB
  rw [Bool.not_eq_false] at hB
  obtain ⟨t, ht⟩ := (isPrefB_iff _ _).mp hB
  by_cases hlen : authLit.length ≤ w.length
  · have h1 : (w ++ tail).take authLit.length = authLit := by
      rw [ht]
      exact List.take_left authLit t
    rw [List.take_append_of_le_length hlen] at h1
    have hw2 : w = authLit ++ w.drop authLit.length := by
      conv_lhs => rw [← List.take_append_drop authLit.length w]
      rw [h1]
    have hsub : isSubB authLit (lowerCL w) = true := by
      apply isSubB_of_isPrefB
      apply (isPrefB_iff _ _).mpr
      refine ⟨lowerCL (w.drop authLit.length), ?_⟩
      conv_lhs => rw [hw2]
      unfold lowerCL
      rw [List.map_append]
      show lowerCL authLit ++ _ = _
      rw [lowerCL_authLit]
    rw [hsub] at hnsub
    cases hnsub
  · push_neg at hlen
    have hdrop : tail = authLit.drop w.length ++ t := by
      have h1 : (w ++ tail).drop w.length = tail := List.drop_left w tail
      rw [ht, List.drop_append_of_le_length (le_of_lt hlen)] at h1
      exact h1.symm
    have hne2 : authLit.drop w.length ≠ [] := by
      intro hnil
      have := List.length_drop w.length authLit
      rw [hnil] at this
      simp at this
      omega
    rcases htail with h0 | ⟨d, tl, hdt, hd⟩
    · rw [h0] at hdrop
      cases he : authLit.drop w.length with
      | nil => exact hne2 he
      | cons e es => rw [he] at hdrop; cases hdrop
    · rw [hdt] at hdrop
      cases he : authLit.drop w.length with
      | nil => exact hne2 he
      | cons e es =>
        rw [he] at hdrop
        injection hdrop with h1 _
        have hmem : e ∈ authLit := by
          apply List.drop_subset w.length
          rw [he]
          exact List.mem_cons_self e es
        have hws := authLit_nonws e hmem
        rw [← h1, hd] at hws
        cases hws

theorem takeWhile_nonws_token (w2 tail2 : List Char)
    (hnws : ∀ c ∈ w2, isJsWs c = false)
    (htail2 : tail2 = [] ∨ ∃ d tl, tail2 = d :: tl ∧ isJsWs d = true) :
    (w2 ++ tail2).takeWhile (fun c => !isJsWs c) = w2 := by
  have hw : w2.takeWhile (fun c => !isJsWs c) = w2 :=
    List.takeWhile_eq_self_iff.mpr (by intro x hx; simp [hnws x hx])
  rw [List.takeWhile_append]
  rw [hw]
  simp only [if_pos rfl]
  rcases htail2 with h0 | ⟨d, tl, hdt, hd⟩
  · rw [h0]; simp
  · rw [hdt, List.takeWhile_cons]
    simp [hd]

theorem afterAuthGroup_sep_tok (w2 tail2 : List Char) (hw2 : w2 ≠ [])
    (hnws : ∀ c ∈ w2, isJsWs c = false)
    (htail2 : tail2 = [] ∨ ∃ d tl, tail2 = d :: tl ∧ isJsWs d = true) :
    afterAuthGroup (' ' :: (w2 ++ tail2)) = tail2 := by
  have h1 : (' ' :: (w2 ++ tail2)).takeWhile isJsWs = [' '] := by
    rw [List.takeWhile_cons]
    simp only [show isJsWs ' ' = true by decide, if_true]
    cases w2 with
    | nil => exact absurd rfl hw2
    | cons c w2' =>
      rw [List.cons_append, List.takeWhile_cons]
      simp [hnws c (List.mem_cons_self c w2')]
  unfold afterAuthGroup
  rw [h1]
  show (if ((w2 ++ tail2).takeWhile (fun c => !isJsWs c)).isEmpty = true
    then (' ' :: (w2 ++ tail2))
    else ((w2 ++ tail2).drop ((w2 ++ tail2).takeWhile (fun c => !isJsWs c)).length)) = tail2
  rw [takeWhile_nonws_token w2 tail2 hnws htail2]
  rw [if_neg (by simp [hw2])]
  exact List.drop_left w2 tail2

theorem tryMatchAuth_sep_auth (t : List Char) :
    tryMatchAuth false (' ' :: (authLit ++ t)) = some (afterAuthGroup t) := by
  unfold tryMatchAuth
  simp [tryLitAuth_self, show isJsWs ' ' = true by decide]

theorem tryMatchAuth_start_auth (t : List Char) :
    tryMatchAuth true (authLit ++ t) = some (afterAuthGroup t) := by
  unfold tryMatchAuth
  simp [tryLitAuth_self]

theorem tryMatchAuth_sep_clean (w tail : List Char)
    (hpref : isPrefB authLit (w ++ tail) = false) :
    tryMatchAuth false (' ' :: (w ++ tail)) = none := by
  unfold tryMatchAuth
  simp [tryLitAuth_none _ hpref, show isJsWs ' ' = true by decide]

theorem tryMatchAuth_start_clean (c : Char) (w' tail : List Char)
    (hc : isJsWs c = false)
    (hpref : isPrefB authLit (c :: (w' ++ tail)) = false) :
    tryMatchAuth true (c :: (w' ++ tail)) = none := by
  unfold tryMatchAuth
  simp [tryLitAuth_none _ hpref, hc]

theorem scanAuth_through (w : List Char) (hnws : ∀ c ∈ w, isJsWs c = false) :
    ∀ (n : Nat) (tail : List Char),
      scanAuth (w.length + n) false (w ++ tail) = w ++ scanAuth n false tail := by
  induction w with
  | nil =>
    intro n tail
    simp
  | cons c w' ih =>
    intro n tail
    have hstep : tryMatchAuth false (c :: (w' ++ tail)) = none :=
      tryMatchAuth_false_nonws c _ (hnws c (List.mem_cons_self c w'))
    have harith : (c :: w').length + n = (w'.length + n) + 1 := by
      simp [List.length_cons]
      omega
    rw [harith, List.cons_append, scanAuth_succ_none _ false c (w' ++ tail) hstep,
      ih (fun x hx => hnws x (List.mem_cons_of_mem c hx)) n tail]
    rfl

theorem scanAuth_sep_head (n : Nat) (z : List Char) :
    ∃ y, scanAuth n false (' ' :: z) = ' ' :: y := by
  cases n with
  | zero => exact ⟨z, rfl⟩
  | succ m =>
    cases h : tryMatchAuth false (' ' :: z) with
    | none => exact ⟨scanAuth m false z, scanAuth_succ_none m false ' ' z h⟩
    | some r => exact ⟨scanAuth m false r, scanAuth_succ_some m false _ r h⟩

/-- A well-shaped free-form token: non-empty, white-space free, and equal to
the deprecated flag or free (case-insensitively) of it as a substring. -/
def cleanTokCL (w : List Char) : Prop :=
  w ≠ [] ∧ (∀ c ∈ w, isJsWs c = false) ∧
    (w = authLit ∨ isSubB authLit (lowerCL w) = false)

instance cleanTokCLDec (w : List Char) : Decidable (cleanTokCL w) :=
  inferInstanceAs (Decidable (w ≠ [] ∧ (∀ c ∈ w, isJsWs c = false) ∧
    (w = authLit ∨ isSubB authLit (lowerCL w) = false)))

theorem interSp_length_cons (w : List Char) (w2 : List Char)
    (rest : List (List Char)) :
    (interSp (w :: w2 :: rest)).length = w.length + 1 + (interSp (w2 :: rest)).length := by
  show (w ++ ' ' :: interSp (w2 :: rest)).length = _
  simp
  omega

theorem dropAuthToks_auth_nil : dropAuthToks [authLit] = [] := by
  simp [dropAuthToks]

theorem dropAuthToks_auth_cons (w2 : List Char) (rest2 : List (List Char)) :
    dropAuthToks (authLit :: w2 :: rest2) = dropAuthToks rest2 := by
  simp [dropAuthToks]

theorem dropAuthToks_clean (w : List Char) (ws : List (List Char))
    (h : w ≠ authLit) : dropAuthToks (w :: ws) = w :: dropAuthToks ws := by
  cases ws <;> simp [dropAuthToks, h]

theorem interSp_two (w w2 : List Char) (rest2 : List (List Char)) :
    interSp (w :: w2 :: rest2) = w ++ ' ' :: interSp (w2 :: rest2) := rfl

theorem interSp_tail_shape (w2 : List Char) (rest2 : List (List Char)) :
    interSp (w2 :: rest2) = w2 ++ (match rest2 with
      | [] => ([] : List Char)
      | a :: t => ' ' :: interSp (a :: t)) := by
  cases rest2 with
  | nil => show w2 = w2 ++ []; simp
  | cons a t => rfl

/-- Scanning from just before a separator: the output's white-space tokens
are exactly the kept tokens. -/
theorem scanAuth_sep_tokens (N : Nat) :
    ∀ (toks : List (List Char)), toks.length ≤ N →
      (∀ w ∈ toks, cleanTokCL w) →
      ∀ n, (interSp toks).length < n →
        wsTokens (scanAuth n false (' ' :: interSp toks)) = dropAuthToks toks := by
  induction N with
  | zero =>
    intro toks hlen _ n hn
    have htoks : toks = [] := List.length_eq_zero.mp (Nat.le_zero.mp hlen)
    subst htoks
    show wsTokens (scanAuth n false [' ']) = []
    cases n with
    | zero => omega
    | succ m =>
      rw [scanAuth_succ_none m false ' ' []
        (by decide : tryMatchAuth false (' ' :: []) = none)]
      rw [scanAuth_nil]
      decide
  | succ N ih =>
    intro toks hlen hgood n hn
    cases toks with
    | nil =>
      show wsTokens (scanAuth n false [' ']) = []
      cases n with
      | zero => simp at hn
      | succ m =>
        rw [scanAuth_succ_none m false ' ' []
          (by decide : tryMatchAuth false (' ' :: []) = none)]
        rw [scanAuth_nil]
        decide
    | cons w rest =>
      obtain ⟨hwne, hwnws, hwalt⟩ := hgood w (List.mem_cons_self w rest)
      cases rest with
      | nil =>
        by_cases hauth : w = authLit
        · subst hauth
          cases n with
          | zero => omega
          | succ m =>
            have hm := tryMatchAuth_sep_auth []
            rw [List.append_nil] at hm
            show wsTokens (scanAuth (m + 1) false (' ' :: authLit)) =
              dropAuthToks [authLit]
            rw [scanAuth_succ_some m false _ _ hm]
            show wsTokens (' ' :: scanAuth m false []) = dropAuthToks [authLit]
            rw [scanAuth_nil, dropAuthToks_auth_nil]
            decide
        · cases n with
          | zero => omega
          | succ m =>
            have hsub : isSubB authLit (lowerCL w) = false := hwalt.resolve_left hauth
            have hpref : isPrefB authLit (w ++ []) = false :=
              not_pref_auth w [] hwne hwnws hsub (Or.inl rfl)
            have hm := tryMatchAuth_sep_clean w [] hpref
            rw [List.append_nil] at hm
            show wsTokens (scanAuth (m + 1) false (' ' :: w)) = dropAuthToks [w]
            rw [scanAuth_succ_none m false ' ' w hm]
            have hwm : w.length ≤ m := by
              have : (interSp [w]).length < m + 1 := hn
              have hlw : (interSp [w]).length = w.length := rfl
              omega
            have hwalk : scanAuth m false w = w := by
              have h1 : scanAuth (w.length + (m - w.length)) false (w ++ []) =
                  w ++ scanAuth (m - w.length) false [] :=
                scanAuth_through w hwnws (m - w.length) []
              rw [scanAuth_nil, List.append_nil] at h1
              rw [show m = w.length + (m - w.length) by omega]
              exact h1
            rw [hwalk, wsTokens_cons_ws ' ' w (by decide),
              wsTokens_of_nonws w hwne hwnws, dropAuthToks_clean w [] hauth]
            rfl
      | cons w2 rest2 =>
        obtain ⟨hw2ne, hw2nws, _⟩ := hgood w2 (by
          exact List.mem_cons_of_mem w (List.mem_cons_self w2 rest2))
        by_cases hauth : w = authLit
        · subst hauth
          cases rest2 with
          | nil =>
            cases n with
            | zero => omega
            | succ m =>
              have hm := tryMatchAuth_sep_auth (' ' :: w2)
              show wsTokens (scanAuth (m + 1) false
                (' ' :: (authLit ++ ' ' :: w2))) = dropAuthToks [authLit, w2]
              rw [scanAuth_succ_some m false _ _ hm]
              have hAG : afterAuthGroup (' ' :: w2) = [] := by
                have h := afterAuthGroup_sep_tok w2 [] hw2ne hw2nws (Or.inl rfl)
                rw [List.append_nil] at h
                exact h
              rw [hAG, scanAuth_nil, dropAuthToks_auth_cons]
              decide
          | cons w3 rest3 =>
            cases n with
            | zero => omega
            | succ m =>
              have hm := tryMatchAuth_sep_auth (' ' :: interSp (w2 :: w3 :: rest3))
              show wsTokens (scanAuth (m + 1) false
                (' ' :: (authLit ++ ' ' :: interSp (w2 :: w3 :: rest3)))) =
                dropAuthToks (authLit :: w2 :: w3 :: rest3)
              rw [scanAuth_succ_some m false _ _ hm]
              have hAG : afterAuthGroup (' ' :: interSp (w2 :: w3 :: rest3)) =
                  ' ' :: interSp (w3 :: rest3) :=
                afterAuthGroup_sep_tok w2 (' ' :: interSp (w3 :: rest3)) hw2ne hw2nws
                  (Or.inr ⟨' ', interSp (w3 :: rest3), rfl, by decide⟩)
              rw [hAG, dropAuthToks_auth_cons]
              rw [wsTokens_cons_ws ' ' _ (by decide)]
              apply ih (w3 :: rest3)
              · simp only [List.length_cons] at hlen ⊢
                omega
              · intro x hx
                exact hgood x (by
                  exact List.mem_cons_of_mem _ (List.mem_cons_of_mem _ hx))
              · have h1 := interSp_length_cons authLit w2 (w3 :: rest3)
                have h2 := interSp_length_cons w2 w3 rest3
                have h15 : authLit.length = 15 := rfl
                omega
        · cases n with
          | zero => omega
          | succ m =>
            have hsub : isSubB authLit (lowerCL w) = false := hwalt.resolve_left hauth
            have hpref : isPrefB authLit (w ++ ' ' :: interSp (w2 :: rest2)) = false :=
              not_pref_auth w _ hwne hwnws hsub
                (Or.inr ⟨' ', interSp (w2 :: rest2), rfl, by decide⟩)
            have hm := tryMatchAuth_sep_clean w _ hpref
            show wsTokens (scanAuth (m + 1) false
              (' ' :: (w ++ ' ' :: interSp (w2 :: rest2)))) =
              dropAuthToks (w :: w2 :: rest2)
            rw [scanAuth_succ_none m false ' ' _ hm]
            have hwm : w.length + 1 + (interSp (w2 :: rest2)).length < m + 1 := by
              have := interSp_length_cons w w2 rest2
              omega
            have hwalk : scanAuth m false (w ++ ' ' :: interSp (w2 :: rest2)) =
                w ++ scanAuth (m - w.length) false (' ' :: interSp (w2 :: rest2)) := by
              rw [show m = w.length + (m - w.length) by omega]
              rw [scanAuth_through w hwnws (m - w.length) (' ' :: interSp (w2 :: rest2))]
              congr 2
              omega
            rw [hwalk]
            obtain ⟨y, hy⟩ := scanAuth_sep_head (m - w.length) (interSp (w2 :: rest2))
            rw [hy]
            rw [wsTokens_cons_ws ' ' _ (by decide)]
            rw [wsTokens_append_sep w ' ' y (by decide)]
            rw [wsTokens_of_nonws w hwne hwnws]
            have hyy : wsTokens y = dropAuthToks (w2 :: rest2) := by
              have h1 : wsTokens (scanAuth (m - w.length) false
                  (' ' :: interSp (w2 :: rest2))) = dropAuthToks (w2 :: rest2) := by
                apply ih (w2 :: rest2)
                · have : (w :: w2 :: rest2).length ≤ N + 1 := hlen
                  simp at this ⊢
                  omega
                · intro x hx
                  exact hgood x (List.mem_cons_of_mem w hx)
                · omega
              rw [hy, wsTokens_cons_ws ' ' y (by decide)] at h1
              exact h1
            rw [hyy, dropAuthToks_clean w _ hauth]
            rfl

/-- Scanning from the start of the text: the output's white-space tokens are
exactly the kept tokens. -/
theorem scanAuth_start_tokens (toks : List (List Char))
    (hgood : ∀ w ∈ toks, cleanTokCL w) :
    ∀ n, (interSp toks).length < n →
      wsTokens (scanAuth n true (interSp toks)) = dropAuthToks toks := by
  intro n hn
  cases toks with
  | nil =>
    show wsTokens (scanAuth n true []) = dropAuthToks []
    rw [scanAuth_nil]
    rfl
  | cons w rest =>
    obtain ⟨hwne, hwnws, hwalt⟩ := hgood w (List.mem_cons_self w rest)
    by_cases hauth : w = authLit
    · subst hauth
      cases rest with
      | nil =>
        cases n with
        | zero => omega
        | succ m =>
          have hm := tryMatchAuth_start_auth []
          rw [List.append_nil] at hm
          show wsTokens (scanAuth (m + 1) true authLit) = dropAuthToks [authLit]
          rw [scanAuth_succ_some m true _ _ hm]
          show wsTokens (' ' :: scanAuth m false []) = dropAuthToks [authLit]
          rw [scanAuth_nil, dropAuthToks_auth_nil]
          decide
      | cons w2 rest2 =>
        obtain ⟨hw2ne, hw2nws, _⟩ := hgood w2
          (List.mem_cons_of_mem _ (List.mem_cons_self w2 rest2))
        cases rest2 with
        | nil =>
          cases n with
          | zero => omega
          | succ m =>
            have hm := tryMatchAuth_start_auth (' ' :: w2)
            show wsTokens (scanAuth (m + 1) true (authLit ++ ' ' :: w2)) =
              dropAuthToks [authLit, w2]
            rw [scanAuth_succ_some m true _ _ hm]
            have hAG : afterAuthGroup (' ' :: w2) = [] := by
              have h := afterAuthGroup_sep_tok w2 [] hw2ne hw2nws (Or.inl rfl)
              rw [List.append_nil] at h
              exact h
            rw [hAG, scanAuth_nil, dropAuthToks_auth_cons]
            decide
        | cons w3 rest3 =>
          cases n with
          | zero => omega
          | succ m =>
            have hm := tryMatchAuth_start_auth (' ' :: interSp (w2 :: w3 :: rest3))
            show wsTokens (scanAuth (m + 1) true
              (authLit ++ ' ' :: interSp (w2 :: w3 :: rest3))) =
              dropAuthToks (authLit :: w2 :: w3 :: rest3)
            rw [scanAuth_succ_some m true _ _ hm]
            have hAG : afterAuthGroup (' ' :: interSp (w2 :: w3 :: rest3)) =
                ' ' :: interSp (w3 :: rest3) :=
              afterAuthGroup_sep_tok w2 (' ' :: interSp (w3 :: rest3)) hw2ne hw2nws
                (Or.inr ⟨' ', interSp (w3 :: rest3), rfl, by decide⟩)
            rw [hAG, dropAuthToks_auth_cons]
            rw [wsTokens_cons_ws ' ' _ (by decide)]
            apply scanAuth_sep_tokens (w3 :: rest3).length (w3 :: rest3)
              (Nat.le_refl _)
            · intro x hx
              exact hgood x (List.mem_cons_of_mem _ (List.mem_cons_of_mem _ hx))
            · have h1 := interSp_length_cons authLit w2 (w3 :: rest3)
              have h2 := interSp_length_cons w2 w3 rest3
              have h15 : authLit.length = 15 := rfl
              omega
    · have hsub : isSubB authLit (lowerCL w) = false := hwalt.resolve_left hauth
      cases w with
      | nil => exact absurd rfl hwne
      | cons c w' =>
        have hc : isJsWs c = false := hwnws c (List.mem_cons_self c w')
        have hw'nws : ∀ x ∈ w', isJsWs x = false :=
          fun x hx => hwnws x (List.mem_cons_of_mem c hx)
        cases rest with
        | nil =>
          cases n with
          | zero => omega
          | succ m =>
            have hpref : isPrefB authLit ((c :: w') ++ []) = false :=
              not_pref_auth (c :: w') [] hwne hwnws hsub (Or.inl rfl)
            have hm : tryMatchAuth true (c :: (w' ++ [])) = none :=
              tryMatchAuth_start_clean c w' [] hc hpref
            rw [List.append_nil] at hm
            show wsTokens (scanAuth (m + 1) true (c :: w')) = dropAuthToks [c :: w']
            rw [scanAuth_succ_none m true c w' hm]
            have hw'm : w'.length ≤ m := by
              have hlw : (interSp [c :: w']).length = w'.length + 1 := by
                show (c :: w').length = w'.length + 1
                rw [List.length_cons]
              omega
            have hwalk : scanAuth m false w' = w' := by
              have h1 : scanAuth (w'.length + (m - w'.length)) false (w' ++ []) =
                  w' ++ scanAuth (m - w'.length) false [] :=
                scanAuth_through w' hw'nws (m - w'.length) []
              rw [scanAuth_nil, List.append_nil] at h1
              rw [show m = w'.length + (m - w'.length) by omega]
              exact h1
            rw [hwalk, wsTokens_of_nonws (c :: w') hwne hwnws,
              dropAuthToks_clean (c :: w') [] hauth]
            rfl
        | cons w2 rest2 =>
          cases n with
          | zero => omega
          | succ m =>
            have hpref : isPrefB authLit
                ((c :: w') ++ ' ' :: interSp (w2 :: rest2)) = false :=
              not_pref_auth (c :: w') _ hwne hwnws hsub
                (Or.inr ⟨' ', interSp (w2 :: rest2), rfl, by decide⟩)
            have hpref2 : isPrefB authLit
                (c :: (w' ++ ' ' :: interSp (w2 :: rest2))) = false := by
              rw [← List.cons_append]
              exact hpref
            have hm : tryMatchAuth true
                (c :: (w' ++ ' ' :: interSp (w2 :: rest2))) = none :=
              tryMatchAuth_start_clean c w' _ hc hpref2
            show wsTokens (scanAuth (m + 1) true
              (c :: (w' ++ ' ' :: interSp (w2 :: rest2)))) =
              dropAuthToks ((c :: w') :: w2 :: rest2)
            rw [scanAuth_succ_none m true c _ hm]
            have hlenfacts : (c :: w').length + 1 +
                (interSp (w2 :: rest2)).length < m + 1 := by
              have := interSp_length_cons (c :: w') w2 rest2
              omega
            have hw'm : w'.length ≤ m := by
              simp only [List.length_cons] at hlenfacts
              omega
            have hwalk : scanAuth m false (w' ++ ' ' :: interSp (w2 :: rest2)) =
                w' ++ scanAuth (m - w'.length) false
                  (' ' :: interSp (w2 :: rest2)) := by
              rw [show m = w'.length + (m - w'.length) by omega]
              rw [scanAuth_through w' hw'nws (m - w'.length)
                (' ' :: interSp (w2 :: rest2))]
              congr 2
              omega
            rw [hwalk]
            obtain ⟨y, hy⟩ := scanAuth_sep_head (m - w'.length) (interSp (w2 :: rest2))
            rw [hy]
            rw [← List.cons_append]
            rw [wsTokens_append_sep (c :: w') ' ' y (by decide)]
            rw [wsTokens_of_nonws (c :: w') hwne hwnws]
            have hyy : wsTokens y = dropAuthToks (w2 :: rest2) := by
              have h1 : wsTokens (scanAuth (m - w'.length) false
                  (' ' :: interSp (w2 :: rest2))) = dropAuthToks (w2 :: rest2) := by
                apply scanAuth_sep_tokens (w2 :: rest2).length (w2 :: rest2)
                  (Nat.le_refl _)
                · intro x hx
                  exact hgood x (List.mem_cons_of_mem _ hx)
                · simp only [List.length_cons] at hlenfacts
                  omega
              rw [hy, wsTokens_cons_ws ' ' y (by decide)] at h1
              exact h1
            rw [hyy, dropAuthToks_clean (c :: w') _ hauth]
            rfl

theorem dropWhile_of_nonws (l : List Char) (hl : ∀ c ∈ l, isJsWs c = false) :
    l.dropWhile isJsWs = l := by
  cases l with
  | nil => rfl
  | cons c cs =>
    rw [List.dropWhile_cons_of_neg]
    simp [hl c (List.mem_cons_self c cs)]

theorem trimCL_of_nonws (w : List Char) (h : ∀ c ∈ w, isJsWs c = false) :
    trimCL w = w := by
  unfold trimCL
  rw [dropWhile_of_nonws w h]
  rw [dropWhile_of_nonws w.reverse (fun c hc => h c (List.mem_reverse.mp hc))]
  exact List.reverse_reverse w

theorem trimS_of_nonws (s : String) (h : ∀ c ∈ s.data, isJsWs c = false) :
    trimS s = s := by
  unfold trimS
  rw [trimCL_of_nonws s.data h]

theorem strDataAppend (a b : String) : (a ++ b).data = a.data ++ b.data := rfl

theorem joinSpace_data : ∀ ps : List String,
    (joinSpace ps).data = interSp (ps.map String.data)
  | [] => rfl
  | [p] => rfl
  | p :: q :: rest => by
    show (p ++ " " ++ joinSpace (q :: rest)).data =
      p.data ++ ' ' :: interSp (q.data :: rest.map String.data)
    rw [strDataAppend, strDataAppend, joinSpace_data (q :: rest)]
    simp

theorem wsTokens_interSp_cons (w : List Char) (ps : List (List Char))
    (h : ps ≠ []) :
    wsTokens (interSp (w :: ps)) = wsTokens w ++ wsTokens (interSp ps) := by
  cases ps with
  | nil => exact absurd rfl h
  | cons q rest =>
    show wsTokens (w ++ ' ' :: interSp (q :: rest)) = _
    exact wsTokens_append_sep w ' ' (interSp (q :: rest)) (by decide)

theorem wsTokens_interSp (ps : List (List Char))
    (h : ∀ w ∈ ps, w ≠ [] ∧ ∀ c ∈ w, isJsWs c = false) :
    wsTokens (interSp ps) = ps := by
  induction ps with
  | nil => rfl
  | cons w rest ih =>
    obtain ⟨hne, hnws⟩ := h w (List.mem_cons_self w rest)
    cases rest with
    | nil => exact wsTokens_of_nonws w hne hnws
    | cons q rest2 =>
      rw [wsTokens_interSp_cons w (q :: rest2) (by simp),
        wsTokens_of_nonws w hne hnws,
        ih (fun x hx => h x (List.mem_cons_of_mem w hx))]
      rfl

theorem dropAuthToks_mem (N : Nat) : ∀ ts : List (List Char), ts.length ≤ N →
    ∀ w ∈ dropAuthToks ts, w ∈ ts ∧ w ≠ authLit := by
  induction N with
  | zero =>
    intro ts hlen w hw
    have hts : ts = [] := List.length_eq_zero.mp (Nat.le_zero.mp hlen)
    subst hts
    simp [dropAuthToks] at hw
  | succ N ih =>
    intro ts hlen w hw
    cases ts with
    | nil => simp [dropAuthToks] at hw
    | cons x ws =>
      by_cases hx : x = authLit
      · subst hx
        cases ws with
        | nil =>
          rw [dropAuthToks_auth_nil] at hw
          simp at hw
        | cons y ws2 =>
          rw [dropAuthToks_auth_cons] at hw
          have hlen2 : ws2.length ≤ N := by
            simp only [List.length_cons] at hlen
            omega
          obtain ⟨hmem, hne⟩ := ih ws2 hlen2 w hw
          exact ⟨List.mem_cons_of_mem _ (List.mem_cons_of_mem _ hmem), hne⟩
      · rw [dropAuthToks_clean x ws hx] at hw
        rcases List.mem_cons.mp hw with heq | htail
        · subst heq
          exact ⟨List.mem_cons_self _ _, hx⟩
        · have hlen2 : ws.length ≤ N := by
            simp only [List.length_cons] at hlen
            omega
          obtain ⟨hmem, hne⟩ := ih ws hlen2 w htail
          exact ⟨List.mem_cons_of_mem _ hmem, hne⟩

theorem interSp_auth_decomp : ∀ ts : List (List Char), authLit ∈ ts →
    (∃ B, interSp ts = authLit ++ B) ∨
      (∃ A B, interSp ts = A ++ ' ' :: (authLit ++ B)) := by
  intro ts
  induction ts with
  | nil => intro h; simp at h
  | cons w rest ih =>
    intro h
    rcases List.mem_cons.mp h with heq | hrest
    · cases rest with
      | nil =>
        refine Or.inl ⟨[], ?_⟩
        show w = authLit ++ []
        rw [List.append_nil, ← heq]
      | cons q rest2 =>
        refine Or.inl ⟨' ' :: interSp (q :: rest2), ?_⟩
        show w ++ ' ' :: interSp (q :: rest2) = authLit ++ ' ' :: interSp (q :: rest2)
        rw [← heq]
    · cases rest with
      | nil => simp at hrest
      | cons q rest2 =>
        rcases ih hrest with ⟨B, hB⟩ | ⟨A, B, hAB⟩
        · refine Or.inr ⟨w, B, ?_⟩
          show w ++ ' ' :: interSp (q :: rest2) = w ++ ' ' :: (authLit ++ B)
          rw [hB]
        · refine Or.inr ⟨w ++ ' ' :: A, B, ?_⟩
          show w ++ ' ' :: interSp (q :: rest2) = (w ++ ' ' :: A) ++ ' ' :: (authLit ++ B)
          rw [hAB]
          simp

theorem testAuth_of_mem (ts : List (List Char)) (h : authLit ∈ ts) :
    testAuthRegex (interSp ts) = true := by
  rcases interSp_auth_decomp ts h with ⟨B, hB⟩ | ⟨A, B, hAB⟩
  · unfold testAuthRegex
    rw [hB, tryMatchAuth_start_auth]
    rfl
  · unfold testAuthRegex
    rw [hAB]
    have hany : anyPosition (fun suf => (tryMatchAuth false suf).isSome)
        (A ++ ' ' :: (authLit ++ B)) = true := by
      rw [anyPosition_iff]
      refine ⟨A, ' ' :: (authLit ++ B), rfl, ?_⟩
      rw [tryMatchAuth_sep_auth]
      rfl
    rw [hany]
    simp

theorem isSubB_prefix_of (p q s : List Char) (h : isSubB (p ++ q) s = true) :
    isSubB p s = true := by
  obtain ⟨u, t, ht⟩ := (isSubB_iff (p ++ q) s).mp h
  refine (isSubB_iff p s).mpr ⟨u, q ++ t, ?_⟩
  rw [ht]
  simp

theorem interSp_ne_nil (w : List Char) (rest : List (List Char)) (hw : w ≠ []) :
    interSp (w :: rest) ≠ [] := by
  cases rest with
  | nil => exact hw
  | cons q rest2 =>
    show w ++ ' ' :: interSp (q :: rest2) ≠ []
    simp

theorem sanitizeAuth_tokens (E : String) (tsd : List (List Char))
    (hE : E.data = interSp tsd) (hgood : ∀ w ∈ tsd, cleanTokCL w) :
    wsTokens (sanitizeAuth E).data = dropAuthToks tsd := by
  show wsTokens (trimCL (collapseWs (scanAuth (E.data.length + 1) true E.data))) = _
  rw [wsTokens_trimCL, wsTokens_collapseWs, hE]
  exact scanAuth_start_tokens tsd hgood _ (by omega)

/-- The schema `runHerokuCommand` computes for `datacloud:deploy` (static
entry, probe spawn failing). -/
def deploySch : CommandSchema :=
  { requiresApp := some true,
    supportedFlags := some
      { addon := some true, authorizationName := some true,
        authorization := some false } }

theorem getSchema_deploy :
    (getSchemaForCommand noHelpExe [] "datacloud:deploy").schema = deploySch := by
  decide

theorem truthyOS_some (s : String) : truthyOS (some s) = (s != "") := rfl

theorem truthyOS_none : truthyOS none = false := rfl

theorem runHeroku_deploy_eq (auth E eF : String)
    (heF : eF = (if (E != "") && testAuthRegex E.data then sanitizeAuth E else E)) :
    runHerokuCommand noHelpExe []
        { defaultApp := some "myapp", defaultAuthorization := some auth }
        true true { extraResponse := some E } "datacloud:deploy"
      = some (joinSpace (["heroku", "datacloud:deploy", "-a", "myapp"] ++
          (if (trimS auth != "") && !includesS (lowerS eF) "--authorization-name"
            then ["--authorization-name", trimS auth] else []) ++
          (if (eF != "") && (trimS eF != "") then [trimS eF] else []))) := by
  have hbeq : (("myapp" : String) == "") = false := by decide
  have hmy : (("myapp" : String) != "") = true := by decide
  have hta : trimS "myapp" = "myapp" := by decide
  have hpos : deploySch.positional = none := rfl
  have hfa : (flagOn deploySch fun f => f.addon) = true := rfl
  have hfc : (flagOn deploySch fun f => f.connection) = false := rfl
  have hfz : (flagOn deploySch fun f => f.authorization) = false := rfl
  have hfn : (flagOn deploySch fun f => f.authorizationName) = true := rfl
  have hcont : ((["heroku", "datacloud:deploy", "-a", "myapp"] : List String).contains
      "--authorization-name") = false := by decide
  have heF' : (if (E != "" && testAuthRegex E.data) = true
      then some (sanitizeAuth E) else some E) = some eF := by
    rw [heF]
    exact (apply_ite some ((E != "" && testAuthRegex E.data) = true)
      (sanitizeAuth E) E).symm
  unfold runHerokuCommand
  simp only [getSchema_deploy, hpos, hfa, hfc, hfz, hfn,
    Option.map_some', Option.map_none', Option.getD_some, Option.getD_none,
    truthyOS_some, truthyOS_none, hbeq, hmy, hta, heF', hcont,
    Bool.not_true, Bool.not_false, Bool.true_and, Bool.and_true,
    Bool.false_and, Bool.and_false, Bool.false_eq_true, eq_self_iff_true,
    if_true, if_false, List.cons_append, List.nil_append, List.append_nil,
    List.append_assoc, collectPositionals]

theorem interSp_single (w : List Char) : interSp [w] = w := rfl

theorem strMkData (s : String) : String.mk s.data = s := rfl

theorem wsTokens_cmd6 (auth : String) (hane : auth.data ≠ [])
    (hanws : ∀ c ∈ auth.data, isJsWs c = false) (tail : List String) :
    wsTokens (joinSpace ("heroku" :: "datacloud:deploy" :: "-a" :: "myapp" ::
        "--authorization-name" :: auth :: tail)).data =
      ["heroku".data, "datacloud:deploy".data, "-a".data, "myapp".data,
        "--authorization-name".data, auth.data] ++ wsTokens (joinSpace tail).data := by
  have t1 : wsTokens "heroku".data = ["heroku".data] := by decide
  have t2 : wsTokens "datacloud:deploy".data = ["datacloud:deploy".data] := by decide
  have t3 : wsTokens "-a".data = ["-a".data] := by decide
  have t4 : wsTokens "myapp".data = ["myapp".data] := by decide
  have t5 : wsTokens "--authorization-name".data = ["--authorization-name".data] := by
    decide
  rw [joinSpace_data]
  simp only [List.map_cons]
  cases tail with
  | nil =>
    simp only [List.map_nil]
    rw [wsTokens_interSp_cons _ _ (by simp), wsTokens_interSp_cons _ _ (by simp),
      wsTokens_interSp_cons _ _ (by simp), wsTokens_interSp_cons _ _ (by simp),
      wsTokens_interSp_cons _ _ (by simp), interSp_single,
      wsTokens_of_nonws auth.data hane hanws, t1, t2, t3, t4, t5]
    show _ = _ ++ wsTokens []
    simp [wsTokens]
  | cons t rest =>
    rw [wsTokens_interSp_cons _ _ (by simp), wsTokens_interSp_cons _ _ (by simp),
      wsTokens_interSp_cons _ _ (by simp), wsTokens_interSp_cons _ _ (by simp),
      wsTokens_interSp_cons _ _ (by simp), wsTokens_interSp_cons _ _ (by simp),
      wsTokens_of_nonws auth.data hane hanws, t1, t2, t3, t4, t5]
    have hj : wsTokens (joinSpace (t :: rest)).data =
        wsTokens (interSp (t.data :: rest.map String.data)) := by
      rw [joinSpace_data]
      simp only [List.map_cons]
    rw [hj]
    simp

theorem cmd6_conclusions (auth : String) (hane : auth.data ≠ [])
    (hanws : ∀ c ∈ auth.data, isJsWs c = false)
    (hansub : isSubB authLit (lowerCL auth.data) = false)
    (TT : List (List Char)) (hTT : authLit ∉ TT) (tail : List String)
    (htail : wsTokens (joinSpace tail).data = TT) :
    "--authorization" ∉ wsTokensS (joinSpace ("heroku" :: "datacloud:deploy" ::
        "-a" :: "myapp" :: "--authorization-name" :: auth :: tail)) ∧
      ["--authorization-name", auth] <:+: wsTokensS (joinSpace ("heroku" ::
        "datacloud:deploy" :: "-a" :: "myapp" :: "--authorization-name" ::
        auth :: tail)) := by
  have h6 := wsTokens_cmd6 auth hane hanws tail
  rw [htail] at h6
  have hS : wsTokensS (joinSpace ("heroku" :: "datacloud:deploy" :: "-a" ::
      "myapp" :: "--authorization-name" :: auth :: tail)) =
      "heroku" :: "datacloud:deploy" :: "-a" :: "myapp" ::
        "--authorization-name" :: auth :: TT.map String.mk := by
    show (wsTokens (joinSpace ("heroku" :: "datacloud:deploy" :: "-a" ::
      "myapp" :: "--authorization-name" :: auth :: tail)).data).map String.mk = _
    rw [h6]
    simp [strMkData]
  constructor
  · rw [hS]
    intro hmem
    simp only [List.mem_cons] at hmem
    rcases hmem with h | h | h | h | h | h | h
    · exact absurd h (by decide)
    · exact absurd h (by decide)
    · exact absurd h (by decide)
    · exact absurd h (by decide)
    · exact absurd h (by decide)
    · have heqd : authLit = auth.data := congrArg String.data h
      rw [← heqd] at hansub
      exact absurd hansub (by decide)
    · obtain ⟨u, hu, hmk⟩ := List.mem_map.mp h
      have hua : u = authLit := congrArg String.data hmk
      rw [hua] at hu
      exact hTT hu
  · rw [hS]
    exact ⟨["heroku", "datacloud:deploy", "-a", "myapp"], TT.map String.mk, by simp⟩

/-- Claim C5 (amended): for `datacloud:deploy` — whose schema marks
`--authorization-name` supported and plain `--authorization` unsupported —
when every white-space-delimited token of the free-form trailing text is
non-empty, white-space-free and either exactly the standalone deprecated
token `--authorization` or free of `--authorization` as a case-insensitive
substring, and a well-formed default authorization is configured, the
assembled command line contains no `--authorization` token, and contains
`--authorization-name` immediately followed by the configured default. -/
theorem runHerokuCommand_sanitizes_deprecated_flag
    (ts : List String) (auth : String)
    (hts : ∀ t ∈ ts, cleanTokCL t.data)
    (hane : auth.data ≠ [])
    (hanws : ∀ c ∈ auth.data, isJsWs c = false)
    (hansub : isSubB authLit (lowerCL auth.data) = false) :
    ∃ cmd,
      runHerokuCommand noHelpExe []
          { defaultApp := some "myapp", defaultAuthorization := some auth }
          true true { extraResponse := some (joinSpace ts) } "datacloud:deploy"
        = some cmd ∧
      "--authorization" ∉ wsTokensS cmd ∧
      ["--authorization-name", auth] <:+: wsTokensS cmd := by
  have htsd : ∀ w ∈ ts.map String.data, cleanTokCL w := by
    intro w hw
    obtain ⟨t, ht, rfl⟩ := List.mem_map.mp hw
    exact hts t ht
  have hE : (joinSpace ts).data = interSp (ts.map String.data) := joinSpace_data ts
  have htrim : trimS auth = auth := trimS_of_nonws auth hanws
  have hT : wsTokens (if (joinSpace ts != "") && testAuthRegex (joinSpace ts).data
        then sanitizeAuth (joinSpace ts) else joinSpace ts).data =
        dropAuthToks (ts.map String.data) ∨
      (wsTokens (if (joinSpace ts != "") && testAuthRegex (joinSpace ts).data
        then sanitizeAuth (joinSpace ts) else joinSpace ts).data =
        ts.map String.data ∧ authLit ∉ ts.map String.data) := by
    by_cases hc : ((joinSpace ts != "") && testAuthRegex (joinSpace ts).data) = true
    · left
      rw [if_pos hc]
      exact sanitizeAuth_tokens (joinSpace ts) (ts.map String.data) hE htsd
    · right
      rw [if_neg hc]
      refine ⟨?_, ?_⟩
      · rw [hE]
        exact wsTokens_interSp (ts.map String.data)
          (fun w hw => ⟨(htsd w hw).1, (htsd w hw).2.1⟩)
      intro hmem
      apply hc
      have ht1 : testAuthRegex (joinSpace ts).data = true := by
        rw [hE]
        exact testAuth_of_mem (ts.map String.data) hmem
      have ht2 : (joinSpace ts != "") = true := by
        rw [bne_iff_ne]
        intro hEeq
        have hnil : (joinSpace ts).data = [] := by rw [hEeq]
        rw [hE] at hnil
        cases hmm : ts.map String.data with
        | nil => rw [hmm] at hmem; simp at hmem
        | cons w rest =>
          rw [hmm] at hnil hmem
          have hwne : w ≠ [] := (htsd w (by rw [hmm]; exact List.mem_cons_self w rest)).1
          exact interSp_ne_nil w rest hwne hnil
      rw [ht1, ht2]
      rfl
  set eF := (if (joinSpace ts != "") && testAuthRegex (joinSpace ts).data
    then sanitizeAuth (joinSpace ts) else joinSpace ts) with heF
  have hTno : authLit ∉ wsTokens eF.data := by
    rcases hT with h | ⟨h, hnm⟩
    · rw [h]
      intro hmem
      obtain ⟨_, hne⟩ := dropAuthToks_mem (ts.map String.data).length
        (ts.map String.data) (Nat.le_refl _) authLit hmem
      exact hne rfl
    · rw [h]
      exact hnm
  have hclean : ∀ w ∈ wsTokens eF.data, isSubB authLit (lowerCL w) = false := by
    rcases hT with h | ⟨h, hnm⟩
    · rw [h]
      intro w hw
      obtain ⟨hmem, hne⟩ := dropAuthToks_mem (ts.map String.data).length
        (ts.map String.data) (Nat.le_refl _) w hw
      exact ((htsd w hmem).2.2).resolve_left hne
    · rw [h]
      intro w hw
      rcases (htsd w hw).2.2 with heq | hs
      · exact absurd (heq ▸ hw) hnm
      · exact hs
  have hincl : includesS (lowerS eF) "--authorization-name" = false := by
    have hIS : includesS (lowerS eF) "--authorization-name" =
        isSubB "--authorization-name".data (lowerCL eF.data) := rfl
    rw [hIS]
    cases hval : isSubB "--authorization-name".data (lowerCL eF.data) with
    | false => rfl
    | true =>
      exfalso
      obtain ⟨u, hu, hsubu⟩ := isSubB_token "--authorization-name".data
        (by decide) (by decide) (lowerCL eF.data) hval
      rw [wsTokens_lowerCL] at hu
      obtain ⟨w, hw, rfl⟩ := List.mem_map.mp hu
      have hdecomp : "--authorization-name".data = authLit ++ "-name".data := by decide
      have hpref : isSubB authLit (lowerCL w) = true :=
        isSubB_prefix_of authLit "-name".data (lowerCL w) (hdecomp ▸ hsubu)
      rw [hclean w hw] at hpref
      exact Bool.false_ne_true hpref
  have hauthne : (auth != "") = true := by
    rw [bne_iff_ne]
    intro h
    exact hane (congrArg String.data h)
  have hcondName : ((trimS auth != "") &&
      !includesS (lowerS eF) "--authorization-name") = true := by
    rw [htrim, hincl, hauthne]
    rfl
  have hrun := runHeroku_deploy_eq auth (joinSpace ts) eF heF
  rw [if_pos hcondName, htrim] at hrun
  by_cases hg : ((eF != "") && (trimS eF != "")) = true
  · rw [if_pos hg] at hrun
    have hl : (["heroku", "datacloud:deploy", "-a", "myapp"] ++
        ["--authorization-name", auth] ++ [trimS eF] : List String) =
        "heroku" :: "datacloud:deploy" :: "-a" :: "myapp" ::
          "--authorization-name" :: auth :: [trimS eF] := rfl
    rw [hl] at hrun
    have htail : wsTokens (joinSpace [trimS eF]).data = wsTokens eF.data := by
      show wsTokens (trimCL eF.data) = wsTokens eF.data
      exact wsTokens_trimCL eF.data
    obtain ⟨hc1, hc2⟩ := cmd6_conclusions auth hane hanws hansub
      (wsTokens eF.data) hTno [trimS eF] htail
    exact ⟨_, hrun, hc1, hc2⟩
  · rw [if_neg hg] at hrun
    have hl : (["heroku", "datacloud:deploy", "-a", "myapp"] ++
        ["--authorization-name", auth] ++ [] : List String) =
        "heroku" :: "datacloud:deploy" :: "-a" :: "myapp" ::
          "--authorization-name" :: auth :: ([] : List String) := rfl
    rw [hl] at hrun
    have htail : wsTokens (joinSpace ([] : List String)).data = [] := by decide
    obtain ⟨hc1, hc2⟩ := cmd6_conclusions auth hane hanws hansub
      [] (by simp) [] htail
    exact ⟨_, hrun, hc1, hc2⟩

/-- Claim C5 (amended), witness: the free-form text `--authorization extra`
with configured default `tok9`: the deprecated token is stripped together with
the token it swallows, and the renamed flag carries the default. -/
theorem runHerokuCommand_sanitizes_deprecated_flag_example :
    ∃ cmd,
      runHerokuCommand noHelpExe []
          { defaultApp := some "myapp", defaultAuthorization := some "tok9" }
          true true { extraResponse := some (joinSpace ["--authorization", "extra"]) }
          "datacloud:deploy"
        = some cmd ∧
      "--authorization" ∉ wsTokensS cmd ∧
      ["--authorization-name", "tok9"] <:+: wsTokensS cmd :=
  runHerokuCommand_sanitizes_deprecated_flag ["--authorization", "extra"] "tok9"
    (by decide) (by decide) (by decide) (by decide)
